import Mathlib

/-!
Verification of the `funcparser` contract-call argument parser
(`methodListener` and its helpers).

The Go listener consumes structural events emitted by a grammar walker and
builds a typed argument list for a resolved ABI method.  We embed:

* the ABI type language (`AbiTy`), `baseType` and `arrayLevel`;
* Go runtime values and their dynamic types (`GoVal`, `GoTy`) so that Go
  type assertions (which panic on mismatch) can be modelled exactly;
* the listener state (`Listener`) and every event handler; a handler
  returns `Option Listener`, with `none` standing for a Go panic
  (nil-pointer dereference, out-of-range index, failed type assertion);
* the structural event stream and its generation from parsed call text.

Machine integers are modelled as `Int`/`Nat`; the coercion helpers enforce
the declared ranges, so no wrap-around arithmetic occurs in this subsystem.
-/

set_option maxRecDepth 20000

namespace Funcparser

/-- ABI parameter types: scalar kinds (with width where applicable) plus
slice/array wrappers, mirroring the `abi.Type` values dispatched on by the
listener (`abi.IntTy`, `abi.UintTy`, `abi.BoolTy`, `abi.StringTy`,
`abi.AddressTy`, `abi.HashTy`, `abi.BytesTy`, `abi.FixedBytesTy`,
`abi.SliceTy`, `abi.ArrayTy`). -/
inductive AbiTy : Type where
  | intTy (size : Nat)
  | uintTy (size : Nat)
  | boolTy
  | stringTy
  | addressTy
  | hashTy
  | bytesTy
  | fixedBytesTy (size : Nat)
  | sliceTy (elem : AbiTy)
  | arrayTy (size : Nat) (elem : AbiTy)
  deriving DecidableEq, Repr

/-- `baseType` strips array/slice wrappers until a scalar kind remains. -/
def baseType : AbiTy → AbiTy
  | .sliceTy e => baseType e
  | .arrayTy _ e => baseType e
  | t => t

/-- `arrayLevel` counts the number of array/slice wrapper levels. -/
def arrayLevel : AbiTy → Nat
  | .sliceTy e => 1 + arrayLevel e
  | .arrayTy _ e => 1 + arrayLevel e
  | _ => 0

/-- Dynamic (runtime) Go types, as recorded in an `interface{}` value and
checked by a type assertion.  `[]byte` is `[]uint8`, so byte strings are
`sliceT uint8T`.  `ifaceT` is `interface{}` (element type of the fallback
`[]interface{}` containers in the default switch branches). -/
inductive GoTy : Type where
  | int8T | int16T | int32T | int64T | bigIntT
  | uint8T | uint16T | uint32T | uint64T
  | boolT | stringT | addressT | hashT | ifaceT
  | sliceT (elem : GoTy)
  deriving DecidableEq, Repr

/-- Go runtime values stored in the listener's `interface{}` slots.  A slice
value carries its static element type, which is what a type assertion
inspects. -/
inductive GoVal : Type where
  | int8V (n : Int) | int16V (n : Int) | int32V (n : Int) | int64V (n : Int)
  | bigIntV (n : Int)
  | uint8V (n : Nat) | uint16V (n : Nat) | uint32V (n : Nat) | uint64V (n : Nat)
  | boolV (b : Bool)
  | stringV (s : String)
  | addressV (bs : List Nat)
  | hashV (bs : List Nat)
  | sliceV (elem : GoTy) (xs : List GoVal)

/-- The dynamic type of a value, as consulted by a Go type assertion. -/
def typeOf : GoVal → GoTy
  | .int8V _ => .int8T
  | .int16V _ => .int16T
  | .int32V _ => .int32T
  | .int64V _ => .int64T
  | .bigIntV _ => .bigIntT
  | .uint8V _ => .uint8T
  | .uint16V _ => .uint16T
  | .uint32V _ => .uint32T
  | .uint64V _ => .uint64T
  | .boolV _ => .boolT
  | .stringV _ => .stringT
  | .addressV _ => .addressT
  | .hashV _ => .hashT
  | .sliceV e _ => .sliceT e

/-- Errors stored in the listener's sticky `err` slot.  Each constructor
corresponds to one `fmt.Errorf` site. -/
inductive PErr : Type where
  /-- `"unknown method name %s"` in `EnterFuncName`. -/
  | unknownMethod (name : String)
  /-- `"too many arguments (expected %d)"` in `EnterArg`. -/
  | tooManyArguments (expected : Nat)
  /-- `"too many arguments for method at %s"` in `EnterArrayArg`. -/
  | tooManyArrayArguments
  /-- `"unexpected type %v"` in `EnterIntArg` / `EnterHexArg`. -/
  | unexpectedType
  /-- malformed literal (bad decimal/hex/boolean text or wrong length). -/
  | formatError (text : String)
  /-- integer literal outside the declared width. -/
  | rangeError (text : String)
  /-- `"unhandled array type %v"` in `makeArray`. -/
  | unhandledArrayType
  /-- `"unhandled nesting level %d"` in `makeArray`. -/
  | unhandledNestingLevel (level : Nat)
  deriving DecidableEq, Repr

/-! ### Literal coercion

The `StrTo*` helpers live in the repository's `util/funcparser` package but
outside the provided sources; they are modelled from the specification's
Literal Coercion Library section. -/

/-- Decimal digit parser over a character list (accumulator form). -/
def decDigitsAux : List Char → Nat → Option Nat
  | [], acc => some acc
  | c :: cs, acc =>
    if c.isDigit then decDigitsAux cs (acc * 10 + (c.toNat - '0'.toNat)) else none

/-- Decimal digit parser over a non-empty character list. -/
def decDigits : List Char → Option Nat
  | [] => none
  | cs => decDigitsAux cs 0

/-- Parse an optionally signed decimal integer literal. -/
def parseDec (s : String) : Option Int :=
  match s.data with
  | '-' :: cs => (decDigits cs).map (fun n => -(n : Int))
  | cs => (decDigits cs).map (fun n => (n : Int))

/-- Hex digit value. -/
def hexDigit (c : Char) : Option Nat :=
  if c.isDigit then some (c.toNat - '0'.toNat)
  else if 'a' ≤ c ∧ c ≤ 'f' then some (c.toNat - 'a'.toNat + 10)
  else if 'A' ≤ c ∧ c ≤ 'F' then some (c.toNat - 'A'.toNat + 10)
  else none

/-- Parse pairs of hex digits into bytes. -/
def hexBytes : List Char → Option (List Nat)
  | [] => some []
  | [_] => none
  | c₁ :: c₂ :: cs =>
    match hexDigit c₁, hexDigit c₂, hexBytes cs with
    | some h, some l, some rest => some ((h * 16 + l) :: rest)
    | _, _, _ => none

/-- Strip an optional `0x` prefix from a hex literal. -/
def stripHexMarker (s : String) : List Char :=
  match s.data with
  | '0' :: 'x' :: cs => cs
  | '0' :: 'X' :: cs => cs
  | cs => cs

/-- A fixed-width signed integer value for a declared width; widths other
than 8/16/32/64 use the arbitrary-precision representation (`*big.Int`). -/
def mkIntVal (size : Nat) (v : Int) : GoVal :=
  if size = 8 then .int8V v
  else if size = 16 then .int16V v
  else if size = 32 then .int32V v
  else if size = 64 then .int64V v
  else .bigIntV v

/-- A fixed-width unsigned integer value for a declared width; widths other
than 8/16/32/64 use the arbitrary-precision representation (`*big.Int`). -/
def mkUintVal (size : Nat) (v : Int) : GoVal :=
  if size = 8 then .uint8V v.toNat
  else if size = 16 then .uint16V v.toNat
  else if size = 32 then .uint32V v.toNat
  else if size = 64 then .uint64V v.toNat
  else .bigIntV v

/-- Modelled from the spec: `StrToInt` (not under `src/`) parses a decimal
literal against a signed integer type; widths 8/16/32/64 use fixed-width
values, other widths an arbitrary-precision value; out-of-range literals
fail with a range error. -/
def StrToInt (t : AbiTy) (s : String) : Except PErr GoVal :=
  match parseDec s with
  | none => .error (.formatError s)
  | some v =>
    match t with
    | .intTy size =>
      if -(2 ^ (size - 1) : Int) ≤ v ∧ v < (2 ^ (size - 1) : Int) then
        .ok (mkIntVal size v)
      else .error (.rangeError s)
    | _ => .error .unexpectedType

/-- Modelled from the spec: `StrToUint` (not under `src/`) parses a decimal
literal against an unsigned integer type, with the same width policy as
`StrToInt`. -/
def StrToUint (t : AbiTy) (s : String) : Except PErr GoVal :=
  match parseDec s with
  | none => .error (.formatError s)
  | some v =>
    match t with
    | .uintTy size =>
      if 0 ≤ v ∧ v < (2 ^ size : Int) then
        .ok (mkUintVal size v)
      else .error (.rangeError s)
    | _ => .error .unexpectedType

/-- Modelled from the spec: `StrToBool` (not under `src/`) accepts
case-insensitive `true`/`false` spellings and rejects everything else. -/
def StrToBool (_t : AbiTy) (s : String) : Except PErr GoVal :=
  let low := String.mk (s.data.map Char.toLower)
  if low = "true" then .ok (.boolV true)
  else if low = "false" then .ok (.boolV false)
  else .error (.formatError s)

/-- Modelled from the spec: `StrToStr` (not under `src/`) uses the literal
text verbatim and never fails. -/
def StrToStr (_t : AbiTy) (s : String) : Except PErr GoVal :=
  .ok (.stringV s)

/-- Modelled from the spec: `StrToAddress` (not under `src/`) requires
exactly 20 hex-encoded bytes. -/
def StrToAddress (_t : AbiTy) (s : String) : Except PErr GoVal :=
  match hexBytes (stripHexMarker s) with
  | some bs => if bs.length = 20 then .ok (.addressV bs) else .error (.formatError s)
  | none => .error (.formatError s)

/-- Modelled from the spec: `StrToHash` (not under `src/`) requires exactly
32 hex-encoded bytes. -/
def StrToHash (_t : AbiTy) (s : String) : Except PErr GoVal :=
  match hexBytes (stripHexMarker s) with
  | some bs => if bs.length = 32 then .ok (.hashV bs) else .error (.formatError s)
  | none => .error (.formatError s)

/-- Modelled from the spec: `StrToBytes` (not under `src/`) hex-decodes a
byte string; a fixed-size variant fails when the decoded length mismatches
the declared size. -/
def StrToBytes (t : AbiTy) (s : String) : Except PErr GoVal :=
  match hexBytes (stripHexMarker s) with
  | some bs =>
    match t with
    | .fixedBytesTy size =>
      if bs.length = size then .ok (.sliceV .uint8T (bs.map GoVal.uint8V))
      else .error (.formatError s)
    | _ => .ok (.sliceV .uint8T (bs.map GoVal.uint8V))
  | none => .error (.formatError s)

/-! ### Contract metadata and listener state -/

/-- An ABI method: its ordered input parameter types. -/
structure Method : Type where
  inputs : List AbiTy
  deriving DecidableEq, Repr

/-- A contract ABI: a constructor and a name-keyed method table. -/
structure Abi : Type where
  constructorMethod : Method
  methods : List (String × Method)
  deriving DecidableEq, Repr

/-- Exact-name lookup in the method table (Go map indexing). -/
def Abi.lookup (a : Abi) (name : String) : Option Method :=
  (a.methods.find? (fun p => p.1 = name)).map Prod.snd

/-- The contract handed to `newMethodListener`. -/
structure Contract : Type where
  abi : Abi
  deriving DecidableEq, Repr

/-- The `methodListener` state. -/
structure Listener : Type where
  contract : Contract
  curArg : Nat
  curArray : List GoVal
  maxArrayLevel : Nat
  method : Option Method
  args : List GoVal
  err : Option PErr

/-- `newMethodListener`: fresh state for one parse. -/
def newMethodListener (c : Contract) : Listener :=
  { contract := c, curArg := 0, curArray := [], maxArrayLevel := 0,
    method := none, args := [], err := none }

/-! ### Array construction -/

/-- The concrete signed-integer Go element type for a declared width,
shared by all the `baseType.Size` switches. -/
def intGoT (size : Nat) : GoTy :=
  if size = 8 then .int8T
  else if size = 16 then .int16T
  else if size = 32 then .int32T
  else if size = 64 then .int64T
  else .bigIntT

/-- The concrete unsigned-integer Go element type for a declared width,
shared by all the `baseType.Size` switches. -/
def uintGoT (size : Nat) : GoTy :=
  if size = 8 then .uint8T
  else if size = 16 then .uint16T
  else if size = 32 then .uint32T
  else if size = 64 then .uint64T
  else .bigIntT

/-- `makeArray`: a fresh, concretely typed empty container for one nesting
level; only levels 1 and 2 are handled. -/
def makeArray (t : AbiTy) (level : Nat) : Except PErr GoVal :=
  if level = 2 then
    match t with
    | .intTy size => .ok (.sliceV (.sliceT (intGoT size)) [])
    | .uintTy size => .ok (.sliceV (.sliceT (uintGoT size)) [])
    | .boolTy => .ok (.sliceV (.sliceT .boolT) [])
    | .stringTy => .ok (.sliceV (.sliceT .stringT) [])
    | .addressTy => .ok (.sliceV (.sliceT .addressT) [])
    | .hashTy => .ok (.sliceV (.sliceT .hashT) [])
    | .bytesTy => .ok (.sliceV (.sliceT (.sliceT .uint8T)) [])
    | .fixedBytesTy _ => .ok (.sliceV (.sliceT (.sliceT .uint8T)) [])
    | _ => .error .unhandledArrayType
  else if level = 1 then
    match t with
    | .intTy size => .ok (.sliceV (intGoT size) [])
    | .uintTy size => .ok (.sliceV (uintGoT size) [])
    | .boolTy => .ok (.sliceV .boolT [])
    | .stringTy => .ok (.sliceV .stringT [])
    | .addressTy => .ok (.sliceV .addressT [])
    | .hashTy => .ok (.sliceV .hashT [])
    | .bytesTy => .ok (.sliceV (.sliceT .uint8T) [])
    | .fixedBytesTy _ => .ok (.sliceV (.sliceT .uint8T) [])
    | _ => .error .unhandledArrayType
  else .error (.unhandledNestingLevel level)

/-- `append(frame.([]τ), v.(τ))`: both type assertions must succeed, else
the program panics (`none`). -/
def appendTyped (τ : GoTy) (frame v : GoVal) : Option GoVal :=
  match frame with
  | .sliceV e xs =>
    if e = τ then
      if typeOf v = τ then some (.sliceV e (xs ++ [v])) else none
    else none
  | _ => none

/-- `append(frame.([]interface\x7b\x7d), v)`: the frame must be an
interface slice; the appended value is not asserted. -/
def appendIface (frame v : GoVal) : Option GoVal :=
  match frame with
  | .sliceV .ifaceT xs => some (.sliceV .ifaceT (xs ++ [v]))
  | _ => none

/-- The `for ; level > 0; level--` loop of `EnterArrayArg`: push one fresh
frame per remaining level, from the outermost level down to 1; a
`makeArray` failure sets the sticky error and stops, keeping the frames
already appended. -/
def pushFrames (t : AbiTy) : Nat → Listener → Listener
  | 0, l => l
  | k + 1, l =>
    match makeArray t (k + 1) with
    | .error e => { l with err := some e }
    | .ok f => pushFrames t k { l with curArray := l.curArray ++ [f] }

/-! ### Event handlers -/

/-- `EnterFuncName`: resolve the method by exact name, special-casing the
`constructor` designator; set the sticky error when absent.  Note: this
handler is not guarded by the sticky error slot. -/
def enterFuncName (l : Listener) (text : String) : Listener :=
  if text = "constructor" then
    { l with method := some l.contract.abi.constructorMethod }
  else
    match l.contract.abi.lookup text with
    | some m => { l with method := some m }
    | none => { l with err := some (.unknownMethod text) }

/-- `EnterArg`: arity guard for one argument. -/
def enterArg (l : Listener) : Option Listener :=
  match l.err with
  | some _ => some l
  | none =>
    match l.method with
    | none => none
    | some m =>
      if l.curArg ≥ m.inputs.length then
        some { l with err := some (.tooManyArguments m.inputs.length) }
      else some l

/-- `ExitArg`: advance the top-level argument index when outside arrays. -/
def exitArg (l : Listener) : Option Listener :=
  match l.err with
  | some _ => some l
  | none =>
    if l.curArray.length = 0 then some { l with curArg := l.curArg + 1 }
    else some l

/-- The switch of `pushArg` on the base type: append the coerced scalar to
the innermost frame via a pair of type assertions. -/
def pushArgDispatch (bt : AbiTy) (frame arg : GoVal) : Option GoVal :=
  match bt with
  | .intTy size => appendTyped (intGoT size) frame arg
  | .uintTy size => appendTyped (uintGoT size) frame arg
  | .boolTy => appendTyped .boolT frame arg
  | .stringTy => appendTyped .stringT frame arg
  | .addressTy => appendTyped .addressT frame arg
  | .hashTy => appendTyped .hashT frame arg
  | .bytesTy => appendTyped (.sliceT .uint8T) frame arg
  | .fixedBytesTy _ => appendTyped (.sliceT .uint8T) frame arg
  | _ => appendIface frame arg

/-- `pushArg`: append a coerced scalar to the output list (array stack
empty) or into the innermost array frame (array stack non-empty). -/
def pushArg (l : Listener) (arg : GoVal) : Option Listener :=
  if l.curArray.length = 0 then some { l with args := l.args ++ [arg] }
  else
    match l.method with
    | none => none
    | some m =>
      match m.inputs[l.curArg]? with
      | none => none
      | some input =>
        match l.curArray.getLast? with
        | none => none
        | some frame =>
          match pushArgDispatch (baseType input) frame arg with
          | none => none
          | some nf => some { l with curArray := l.curArray.dropLast ++ [nf] }

/-- `EnterIntArg`: coerce a decimal literal against the declared base type
(signed or unsigned integer) and push it. -/
def enterIntArg (l : Listener) (text : String) : Option Listener :=
  match l.err with
  | some _ => some l
  | none =>
    match l.method with
    | none => none
    | some m =>
      match m.inputs[l.curArg]? with
      | none => none
      | some input =>
        let res :=
          match baseType input with
          | .intTy size => StrToInt (.intTy size) text
          | .uintTy size => StrToUint (.uintTy size) text
          | _ => .error .unexpectedType
        match res with
        | .error e => some { l with err := some e }
        | .ok arg => pushArg l arg

/-- `EnterBoolArg`: coerce a boolean literal and push it. -/
def enterBoolArg (l : Listener) (text : String) : Option Listener :=
  match l.err with
  | some _ => some l
  | none =>
    match l.method with
    | none => none
    | some m =>
      match m.inputs[l.curArg]? with
      | none => none
      | some input =>
        match StrToBool (baseType input) text with
        | .error e => some { l with err := some e }
        | .ok arg => pushArg l arg

/-- `EnterStringArg`: coerce a string literal and push it. -/
def enterStringArg (l : Listener) (text : String) : Option Listener :=
  match l.err with
  | some _ => some l
  | none =>
    match l.method with
    | none => none
    | some m =>
      match m.inputs[l.curArg]? with
      | none => none
      | some input =>
        match StrToStr (baseType input) text with
        | .error e => some { l with err := some e }
        | .ok arg => pushArg l arg

/-- `EnterHexArg`: coerce a hex literal against the declared base type
(address, hash or bytes) and push it. -/
def enterHexArg (l : Listener) (text : String) : Option Listener :=
  match l.err with
  | some _ => some l
  | none =>
    match l.method with
    | none => none
    | some m =>
      match m.inputs[l.curArg]? with
      | none => none
      | some input =>
        let res :=
          match baseType input with
          | .addressTy => StrToAddress (baseType input) text
          | .hashTy => StrToHash (baseType input) text
          | .bytesTy => StrToBytes (baseType input) text
          | .fixedBytesTy size => StrToBytes (.fixedBytesTy size) text
          | _ => .error .unexpectedType
        match res with
        | .error e => some { l with err := some e }
        | .ok arg => pushArg l arg

/-- `EnterArrayArg`: on first entry create one frame per declared nesting
level, on re-entry extend only the missing levels. -/
def enterArrayArg (l : Listener) : Option Listener :=
  match l.err with
  | some _ => some l
  | none =>
    match l.method with
    | none => none
    | some m =>
      if m.inputs.length ≤ l.curArg then
        some { l with err := some .tooManyArrayArguments }
      else
        match m.inputs[l.curArg]? with
        | none => none
        | some input =>
          let bt := baseType input
          let level := arrayLevel input
          if l.curArray.length = 0 then
            some (pushFrames bt level { l with curArray := [], maxArrayLevel := level })
          else
            some (pushFrames bt (((level : Int) - (l.curArray.length : Int)).toNat) l)

/-- The `level == 1` switch of `ExitArrayArg`: append the child frame (a
`[]τ`) into the parent frame (a `[][]τ`). -/
def exitArrayDispatch1 (bt : AbiTy) (parent child : GoVal) : Option GoVal :=
  match bt with
  | .intTy size => appendTyped (.sliceT (intGoT size)) parent child
  | .uintTy size => appendTyped (.sliceT (uintGoT size)) parent child
  | .boolTy => appendTyped (.sliceT .boolT) parent child
  | .stringTy => appendTyped (.sliceT .stringT) parent child
  | .addressTy => appendTyped (.sliceT .addressT) parent child
  | .hashTy => appendTyped (.sliceT .hashT) parent child
  | .bytesTy => appendTyped (.sliceT (.sliceT .uint8T)) parent child
  | .fixedBytesTy _ => appendTyped (.sliceT (.sliceT .uint8T)) parent child
  | _ => appendIface parent child

/-- The `level == 2` switch of `ExitArrayArg`: append the child frame (a
`[][]τ`) into the parent frame (a `[][][]τ`). -/
def exitArrayDispatch2 (bt : AbiTy) (parent child : GoVal) : Option GoVal :=
  match bt with
  | .intTy size => appendTyped (.sliceT (.sliceT (intGoT size))) parent child
  | .uintTy size => appendTyped (.sliceT (.sliceT (uintGoT size))) parent child
  | .boolTy => appendTyped (.sliceT (.sliceT .boolT)) parent child
  | .stringTy => appendTyped (.sliceT (.sliceT .stringT)) parent child
  | .addressTy => appendTyped (.sliceT (.sliceT .addressT)) parent child
  | .hashTy => appendTyped (.sliceT (.sliceT .hashT)) parent child
  | .bytesTy => appendTyped (.sliceT (.sliceT (.sliceT .uint8T))) parent child
  | .fixedBytesTy _ => appendTyped (.sliceT (.sliceT (.sliceT .uint8T))) parent child
  | _ => appendTyped (.sliceT .ifaceT) parent child

/-- `ExitArrayArg`: with exactly one frame, the finished container is
appended to the output list; with more frames, the innermost is appended
into its parent via the level-keyed switch; then the innermost frame is
dropped.  Dropping from an empty stack, or indexing `parent`/`child` in an
empty stack, panics. -/
def exitArrayArg (l : Listener) : Option Listener :=
  match l.err with
  | some _ => some l
  | none =>
    match l.curArray with
    | [x] => some { l with args := l.args ++ [x], curArray := [] }
    | stack =>
      match l.method with
      | none => none
      | some m =>
        match m.inputs[l.curArg]? with
        | none => none
        | some input =>
          let bt := baseType input
          let lv : Int := (l.maxArrayLevel : Int) + 1 - (stack.length : Int)
          if lv = 1 then
            match stack.dropLast.getLast?, stack.getLast? with
            | some parent, some child =>
              match exitArrayDispatch1 bt parent child with
              | none => none
              | some np =>
                some { l with curArray := (stack.dropLast.dropLast ++ [np]) }
            | _, _ => none
          else if lv = 2 then
            match stack.dropLast.getLast?, stack.getLast? with
            | some parent, some child =>
              match exitArrayDispatch2 bt parent child with
              | none => none
              | some np =>
                some { l with curArray := (stack.dropLast.dropLast ++ [np]) }
            | _, _ => none
          else
            match stack with
            | [] => none
            | _ => some { l with curArray := stack.dropLast }

/-! ### Event streams -/

/-- One structural event from the grammar walker.  Scalar-literal contexts
carry their token text; only the handlers overridden by `methodListener`
appear (the remaining walker callbacks are no-ops). -/
inductive Event : Type where
  | funcName (text : String)
  | enterArg
  | exitArg
  | intArg (text : String)
  | boolArg (text : String)
  | stringArg (text : String)
  | hexArg (text : String)
  | enterArrayArg
  | exitArrayArg
  deriving DecidableEq, Repr

/-- Dispatch one event to its handler; `none` is a Go panic. -/
def processEvent (l : Listener) : Event → Option Listener
  | .funcName s => some (enterFuncName l s)
  | .enterArg => enterArg l
  | .exitArg => exitArg l
  | .intArg s => enterIntArg l s
  | .boolArg s => enterBoolArg l s
  | .stringArg s => enterStringArg l s
  | .hexArg s => enterHexArg l s
  | .enterArrayArg => enterArrayArg l
  | .exitArrayArg => exitArrayArg l

/-- Run the listener over an event stream, propagating panics. -/
def run (l : Listener) : List Event → Option Listener
  | [] => some l
  | e :: es =>
    match processEvent l e with
    | none => none
    | some l' => run l' es

/-! ### Parsed call text

Modelled from the spec: the grammar collaborator (not under `src/`)
traverses the parsed call text in strict left-to-right order and emits one
enter/exit pair per argument node, with array elements wrapped in their own
argument nodes. -/

/-- A scalar literal token, classified by the grammar's lexical rules. -/
inductive Lit : Type where
  | intL (text : String)
  | boolL (text : String)
  | stringL (text : String)
  | hexL (text : String)
  deriving DecidableEq, Repr

/-- One argument node of the parsed call text: a scalar literal or a
bracketed array of argument nodes. -/
inductive Node : Type where
  | lit (l : Lit)
  | arr (elems : List Node)

mutual

/-- Modelled from the spec: the event sequence the grammar walker emits for
one argument node. -/
def nodeEvents : Node → List Event
  | .lit (.intL s) => [.enterArg, .intArg s, .exitArg]
  | .lit (.boolL s) => [.enterArg, .boolArg s, .exitArg]
  | .lit (.stringL s) => [.enterArg, .stringArg s, .exitArg]
  | .lit (.hexL s) => [.enterArg, .hexArg s, .exitArg]
  | .arr es => .enterArg :: .enterArrayArg :: (nodesEvents es ++ [.exitArrayArg, .exitArg])

/-- Event sequence for a list of sibling argument nodes. -/
def nodesEvents : List Node → List Event
  | [] => []
  | nd :: nds => nodeEvents nd ++ nodesEvents nds

end

/-- Modelled from the spec: the full event stream for one call text —
the function name first, then the top-level argument nodes in order. -/
def callEvents (name : String) (nds : List Node) : List Event :=
  .funcName name :: nodesEvents nds

/-- Parse one call text against a contract: run the listener over the
generated event stream from a fresh state. -/
def runCall (c : Contract) (name : String) (nds : List Node) : Option Listener :=
  run (newMethodListener c) (callEvents name nds)

/-- The scalar-literal coercion dispatch shared by `EnterIntArg`,
`EnterBoolArg`, `EnterStringArg` and `EnterHexArg`, as a function of the
literal and the declared base type. -/
def coerceLit : Lit → AbiTy → Except PErr GoVal
  | .intL s, bt =>
    match bt with
    | .intTy size => StrToInt (.intTy size) s
    | .uintTy size => StrToUint (.uintTy size) s
    | _ => .error .unexpectedType
  | .boolL s, bt => StrToBool bt s
  | .stringL s, bt => StrToStr bt s
  | .hexL s, bt =>
    match bt with
    | .addressTy => StrToAddress .addressTy s
    | .hashTy => StrToHash .hashTy s
    | .bytesTy => StrToBytes .bytesTy s
    | .fixedBytesTy size => StrToBytes (.fixedBytesTy size) s
    | _ => .error .unexpectedType

/-- Whether a literal coerces successfully against a base type. -/
def coerceOk (l : Lit) (bt : AbiTy) : Bool :=
  match coerceLit l bt with
  | .ok _ => true
  | .error _ => false

/-- Whether a literal token's lexical kind agrees with a declared scalar
base kind (the routing the grammar's lexer and the handlers implement). -/
def litKindOk : Lit → AbiTy → Bool
  | .intL _, .intTy _ => true
  | .intL _, .uintTy _ => true
  | .boolL _, .boolTy => true
  | .stringL _, .stringTy => true
  | .hexL _, .addressTy => true
  | .hexL _, .hashTy => true
  | .hexL _, .bytesTy => true
  | .hexL _, .fixedBytesTy _ => true
  | _, _ => false

/-- The coerced value of a literal (meaningful when `coerceOk`). -/
def coerceD (l : Lit) (bt : AbiTy) : GoVal :=
  match coerceLit l bt with
  | .ok v => v
  | .error _ => .boolV false

/-- The concrete Go element type used by the dispatch switches for a scalar
base kind. -/
def elemGoType : AbiTy → GoTy
  | .intTy size => intGoT size
  | .uintTy size => uintGoT size
  | .boolTy => .boolT
  | .stringTy => .stringT
  | .addressTy => .addressT
  | .hashTy => .hashT
  | .bytesTy => .sliceT .uint8T
  | .fixedBytesTy _ => .sliceT .uint8T
  | _ => .ifaceT

/-- The Go runtime type of a finished argument value for a declared
parameter type: one slice level per declared array level over the scalar
element type. -/
def goValTy : AbiTy → GoTy
  | .sliceTy e => .sliceT (goValTy e)
  | .arrayTy _ e => .sliceT (goValTy e)
  | t => elemGoType t

/-- Container nesting depth of a Go runtime type. -/
def goDepth : GoTy → Nat
  | .sliceT e => 1 + goDepth e
  | _ => 0

mutual

/-- An argument node is well-typed for a declared parameter type when its
bracket nesting matches the declared array levels exactly and every leaf
literal coerces against the scalar base kind. -/
def nodeMatches : Node → AbiTy → Bool
  | .lit l, t => arrayLevel t = 0 && litKindOk l t && coerceOk l t
  | .arr es, t =>
    match t with
    | .sliceTy e => nodesMatch es e
    | .arrayTy _ e => nodesMatch es e
    | _ => false

/-- All sibling nodes are well-typed for the element type. -/
def nodesMatch : List Node → AbiTy → Bool
  | [], _ => true
  | nd :: nds, e => nodeMatches nd e && nodesMatch nds e

end

mutual

/-- The intended value of a well-typed argument node: coerce leaves, build
one concretely typed container per declared array level, preserving order. -/
def nodeValue : Node → AbiTy → GoVal
  | .lit l, t => coerceD l t
  | .arr es, t =>
    match t with
    | .sliceTy e => .sliceV (goValTy e) (nodesValue es e)
    | .arrayTy _ e => .sliceV (goValTy e) (nodesValue es e)
    | _ => .boolV false

/-- Values of a list of sibling nodes. -/
def nodesValue : List Node → AbiTy → List GoVal
  | [], _ => []
  | nd :: nds, e => nodeValue nd e :: nodesValue nds e

end

/-- The method a function-name token resolves to, mirroring the lookup in
`EnterFuncName`. -/
def resolveName (c : Contract) (name : String) : Option Method :=
  if name = "constructor" then some c.abi.constructorMethod
  else c.abi.lookup name

/-- The event a scalar literal token produces. -/
def litEvent : Lit → Event
  | .intL s => .intArg s
  | .boolL s => .boolArg s
  | .stringL s => .stringArg s
  | .hexL s => .hexArg s

/-- Scalar (non-wrapper) ABI kinds. -/
def scalarKind : AbiTy → Bool
  | .sliceTy _ => false
  | .arrayTy _ _ => false
  | _ => true

/-- The immediate element type of an array/slice wrapper. -/
def elemTy : AbiTy → Option AbiTy
  | .sliceTy e => some e
  | .arrayTy _ e => some e
  | _ => none

/-- A node is an empty bracket literal. -/
def emptyArr : Node → Bool
  | .arr [] => true
  | _ => false

/-- Validity of a list of supplied argument nodes against a list of declared
parameter types: pairwise well-typed, every declared depth at most 2, and no
empty array literal at a depth-2 parameter.  Fewer nodes than parameters is
allowed; more is not. -/
def validArgs : List Node → List AbiTy → Bool
  | [], _ => true
  | _ :: _, [] => false
  | nd :: nds, t :: ts =>
    Nat.ble (arrayLevel t) 2 && nodeMatches nd t &&
      !(arrayLevel t = 2 && emptyArr nd) && validArgs nds ts

/-- Intended values of a list of supplied argument nodes. -/
def argValues : List Node → List AbiTy → List GoVal
  | [], _ => []
  | _ :: _, [] => []
  | nd :: nds, t :: ts => nodeValue nd t :: argValues nds ts

mutual

/-- Size measure for inductions over the nested node type. -/
def nodeSize : Node → Nat
  | .lit _ => 1
  | .arr es => 1 + nodesSize es

/-- Size measure for node lists. -/
def nodesSize : List Node → Nat
  | [] => 0
  | nd :: nds => nodeSize nd + nodesSize nds

end

/-- The invariant carried through every argument event of a parse whose
method resolved to `m`: the output list never exceeds the declared
parameter count, and while no error is set it is bounded by the current
argument index, itself at most the parameter count. -/
def Binv (m : Method) (s : Listener) : Prop :=
  s.args.length ≤ m.inputs.length ∧
    (s.err = none →
      s.method = some m ∧ s.args.length ≤ s.curArg ∧ s.curArg ≤ m.inputs.length)

/-- Every non-panicking prefix of `evs` run from `s` keeps the output list
within the bound `n`. -/
def boundAll (n : Nat) (s : Listener) (evs : List Event) : Prop :=
  ∀ p q t, evs = p ++ q → run s p = some t → t.args.length ≤ n

/-- Bookkeeping relation between the state before and after a span of
argument events: errors are sticky backwards, output growth equals
argument-index growth, and the final state either has an empty array stack,
or an index that passed an arity check, or is unchanged in index and
stack. -/
def ExtraRel (n : Nat) (s t : Listener) : Prop :=
  t.err = none → s.err = none ∧
    t.args.length + s.curArg = s.args.length + t.curArg ∧
    (t.curArray = [] ∨ t.curArg < n ∨
      (t.curArg = s.curArg ∧ t.curArray = s.curArray))

/-- Conclusion bundle of the stream-bound induction: every prefix is
bounded, and a completed run preserves the invariant together with the
bookkeeping relation. -/
def StepConc (m : Method) (s : Listener) (evs : List Event) : Prop :=
  boundAll m.inputs.length s evs ∧
    ∀ t, run s evs = some t → Binv m t ∧ ExtraRel m.inputs.length s t

/-! ### A concrete example contract, used to instantiate the general
theorems and to exhibit concrete runs -/

/-- `f(uint256)`. -/
def mU256 : Method := { inputs := [.uintTy 256] }

/-- `u8(uint8)`. -/
def mU8 : Method := { inputs := [.uintTy 8] }

/-- `setValues(uint8[])`. -/
def mU8d1 : Method := { inputs := [.sliceTy (.uintTy 8)] }

/-- `g(uint8[][])`. -/
def mU8d2 : Method := { inputs := [.sliceTy (.sliceTy (.uintTy 8))] }

/-- `deep(uint8[][][])`. -/
def mU8d3 : Method := { inputs := [.sliceTy (.sliceTy (.sliceTy (.uintTy 8)))] }

/-- `transfer(address,uint256)`. -/
def mTransfer : Method := { inputs := [.addressTy, .uintTy 256] }

/-- An ABI exposing all the example methods. -/
def exampleAbi : Abi :=
  { constructorMethod := { inputs := [] }
    methods := [("f", mU256), ("u8", mU8), ("setValues", mU8d1), ("g", mU8d2),
      ("deep", mU8d3), ("transfer", mTransfer)] }

/-- The contract built over `exampleAbi`. -/
def exampleContract : Contract := { abi := exampleAbi }

/-- The literal token `1`. -/
def lit1 : Node := .lit (.intL "1")

/-- The literal token `2`. -/
def lit2 : Node := .lit (.intL "2")

/-- The literal token `3`. -/
def lit3 : Node := .lit (.intL "3")

/-- A fresh listener that has resolved `setValues(uint8[])`. -/
def sSetValues : Listener :=
  { newMethodListener exampleContract with method := some mU8d1 }

/-- A fresh listener that has resolved `g(uint8[][])`. -/
def sG : Listener :=
  { newMethodListener exampleContract with method := some mU8d2 }

/-! ### Basic lemmas about `run` -/

theorem run_append (l : Listener) (p q : List Event) :
    run l (p ++ q) =
      match run l p with
      | none => none
      | some t => run t q := by
  induction p generalizing l with
  | nil => simp [run]
  | cons e es ih =>
    simp only [List.cons_append, run]
    cases processEvent l e with
    | none => rfl
    | some t => exact ih t

/-- Once the sticky error is set, a single event leaves the argument state
(output list, argument index, array stack) unchanged and the error slot
occupied; only the function-name event can still rewrite the method slot or
replace the error. -/
theorem processEvent_frozen (s : Listener) (e : PErr) (h : s.err = some e) (ev : Event) :
    ∃ t, processEvent s ev = some t ∧ t.args = s.args ∧ t.curArg = s.curArg ∧
      t.curArray = s.curArray ∧ t.err.isSome := by
  cases ev with
  | funcName txt =>
    refine ⟨enterFuncName s txt, rfl, ?_⟩
    unfold enterFuncName
    by_cases htxt : txt = "constructor"
    · simp [htxt, h]
    · cases hl : s.contract.abi.lookup txt <;> simp [htxt, hl, h]
  | enterArg => exact ⟨s, by simp [processEvent, enterArg, h], rfl, rfl, rfl, by simp [h]⟩
  | exitArg => exact ⟨s, by simp [processEvent, exitArg, h], rfl, rfl, rfl, by simp [h]⟩
  | intArg txt =>
    exact ⟨s, by simp [processEvent, enterIntArg, h], rfl, rfl, rfl, by simp [h]⟩
  | boolArg txt =>
    exact ⟨s, by simp [processEvent, enterBoolArg, h], rfl, rfl, rfl, by simp [h]⟩
  | stringArg txt =>
    exact ⟨s, by simp [processEvent, enterStringArg, h], rfl, rfl, rfl, by simp [h]⟩
  | hexArg txt =>
    exact ⟨s, by simp [processEvent, enterHexArg, h], rfl, rfl, rfl, by simp [h]⟩
  | enterArrayArg =>
    exact ⟨s, by simp [processEvent, enterArrayArg, h], rfl, rfl, rfl, by simp [h]⟩
  | exitArrayArg =>
    exact ⟨s, by simp [processEvent, exitArrayArg, h], rfl, rfl, rfl, by simp [h]⟩

/-- Once the sticky error is set, draining any remaining event stream
completes without panic and without touching the argument state. -/
theorem run_frozen (s : Listener) (e : PErr) (h : s.err = some e) (evs : List Event) :
    ∃ t, run s evs = some t ∧ t.args = s.args ∧ t.curArg = s.curArg ∧
      t.curArray = s.curArray ∧ t.err.isSome := by
  induction evs generalizing s e with
  | nil => exact ⟨s, rfl, rfl, rfl, rfl, by simp [h]⟩
  | cons ev evs ih =>
    obtain ⟨t, hp, ha, hc, hs, he⟩ := processEvent_frozen s e h ev
    obtain ⟨e', he'⟩ := Option.isSome_iff_exists.mp he
    obtain ⟨u, hu, hua, huc, hus, hue⟩ := ih t e' he'
    refine ⟨u, ?_, by rw [hua, ha], by rw [huc, hc], by rw [hus, hs], hue⟩
    simp [run, hp, hu]

/-- A non-function-name event is a strict no-op once the sticky error is
set. -/
theorem processEvent_frozen_id (s : Listener) (e : PErr) (h : s.err = some e)
    (ev : Event) (hname : ∀ txt, ev ≠ .funcName txt) :
    processEvent s ev = some s := by
  cases ev with
  | funcName txt => exact absurd rfl (hname txt)
  | enterArg => simp [processEvent, enterArg, h]
  | exitArg => simp [processEvent, exitArg, h]
  | intArg txt => simp [processEvent, enterIntArg, h]
  | boolArg txt => simp [processEvent, enterBoolArg, h]
  | stringArg txt => simp [processEvent, enterStringArg, h]
  | hexArg txt => simp [processEvent, enterHexArg, h]
  | enterArrayArg => simp [processEvent, enterArrayArg, h]
  | exitArrayArg => simp [processEvent, exitArrayArg, h]

/-- Draining a function-name-free stream from an error state returns the
state unchanged. -/
theorem run_frozen_id (s : Listener) (e : PErr) (h : s.err = some e)
    (evs : List Event) (hname : ∀ txt, Event.funcName txt ∉ evs) :
    run s evs = some s := by
  induction evs with
  | nil => rfl
  | cons ev evs ih =>
    have h1 : processEvent s ev = some s := by
      refine processEvent_frozen_id s e h ev (fun txt hev => ?_)
      exact hname txt (hev ▸ List.mem_cons_self ev evs)
    have h2 : run s evs = some s :=
      ih (fun txt hm => hname txt (List.mem_cons_of_mem _ hm))
    simp [run, h1, h2]

/-- `EnterFuncName` on a resolvable name installs the resolved method. -/
theorem enterFuncName_resolved (s : Listener) (name : String) (m : Method)
    (h : resolveName s.contract name = some m) :
    enterFuncName s name = { s with method := some m } := by
  unfold resolveName at h
  unfold enterFuncName
  by_cases hn : name = "constructor"
  · simp [hn] at h ⊢
    rw [h]
  · simp [hn] at h ⊢
    simp [h]

/-- `EnterFuncName` on an unresolvable name sets `UnknownMethod`. -/
theorem enterFuncName_unknown (s : Listener) (name : String)
    (hn : name ≠ "constructor") (h : s.contract.abi.lookup name = none) :
    enterFuncName s name = { s with err := some (.unknownMethod name) } := by
  unfold enterFuncName
  simp [hn, h]

/-! ### Handler shape lemmas -/

theorem enterArg_ok (s : Listener) (m : Method) (h : s.err = none)
    (hm : s.method = some m) (hlt : s.curArg < m.inputs.length) :
    enterArg s = some s := by
  unfold enterArg
  rw [h, hm]
  simp only
  rw [if_neg (by omega)]

theorem enterArg_toomany (s : Listener) (m : Method) (h : s.err = none)
    (hm : s.method = some m) (hge : m.inputs.length ≤ s.curArg) :
    enterArg s = some { s with err := some (.tooManyArguments m.inputs.length) } := by
  unfold enterArg
  rw [h, hm]
  simp only
  rw [if_pos (by omega)]

theorem exitArg_inc (s : Listener) (h : s.err = none) (hc : s.curArray = []) :
    exitArg s = some { s with curArg := s.curArg + 1 } := by
  unfold exitArg
  rw [h]
  simp [hc]

theorem exitArg_noinc (s : Listener) (h : s.err = none) (hc : s.curArray ≠ []) :
    exitArg s = some s := by
  unfold exitArg
  rw [h]
  simp [hc]

/-! ### Typing lemmas for coercion and dispatch -/

theorem mkIntVal_typeOf (size : Nat) (v : Int) : typeOf (mkIntVal size v) = intGoT size := by
  unfold mkIntVal intGoT
  split_ifs <;> rfl

theorem mkUintVal_typeOf (size : Nat) (v : Int) : typeOf (mkUintVal size v) = uintGoT size := by
  unfold mkUintVal uintGoT
  split_ifs <;> rfl

/-- A successfully coerced literal of an agreeing kind has the concrete Go
type of the dispatch switches. -/
theorem coerceLit_typeOf (lit : Lit) (bt : AbiTy) (v : GoVal)
    (hk : litKindOk lit bt = true) (h : coerceLit lit bt = .ok v) :
    typeOf v = elemGoType bt := by
  cases lit with
  | intL s =>
    cases bt <;> simp [litKindOk] at hk <;>
      simp only [coerceLit, StrToInt, StrToUint] at h
    case intTy size =>
      cases hd : parseDec s with
      | none => rw [hd] at h; exact absurd h (by simp)
      | some w =>
        rw [hd] at h
        simp only at h
        split_ifs at h with hr
        all_goals first
          | (cases h; exact (mkIntVal_typeOf size w).trans rfl)
          | exact absurd h (by simp)
    case uintTy size =>
      cases hd : parseDec s with
      | none => rw [hd] at h; exact absurd h (by simp)
      | some w =>
        rw [hd] at h
        simp only at h
        split_ifs at h with hr
        all_goals first
          | (cases h; exact (mkUintVal_typeOf size w).trans rfl)
          | exact absurd h (by simp)
  | boolL s =>
    cases bt <;> simp [litKindOk] at hk
    simp only [coerceLit, StrToBool] at h
    split_ifs at h <;> cases h <;> rfl
  | stringL s =>
    cases bt <;> simp [litKindOk] at hk
    simp only [coerceLit, StrToStr] at h
    cases h
    rfl
  | hexL s =>
    cases bt <;> simp [litKindOk] at hk <;>
      simp only [coerceLit, StrToAddress, StrToHash, StrToBytes] at h
    case addressTy =>
      cases hd : hexBytes (stripHexMarker s) with
      | none => rw [hd] at h; exact absurd h (by simp)
      | some bs =>
        rw [hd] at h
        simp only at h
        split_ifs at h
        all_goals first
          | (cases h; rfl)
          | exact absurd h (by simp)
    case hashTy =>
      cases hd : hexBytes (stripHexMarker s) with
      | none => rw [hd] at h; exact absurd h (by simp)
      | some bs =>
        rw [hd] at h
        simp only at h
        split_ifs at h
        all_goals first
          | (cases h; rfl)
          | exact absurd h (by simp)
    case bytesTy =>
      cases hd : hexBytes (stripHexMarker s) with
      | none => rw [hd] at h; exact absurd h (by simp)
      | some bs =>
        rw [hd] at h
        simp only at h
        cases h
        rfl
    case fixedBytesTy size =>
      cases hd : hexBytes (stripHexMarker s) with
      | none => rw [hd] at h; exact absurd h (by simp)
      | some bs =>
        rw [hd] at h
        simp only at h
        split_ifs at h
        all_goals first
          | (cases h; rfl)
          | exact absurd h (by simp)

theorem baseType_scalar (t : AbiTy) : scalarKind (baseType t) = true := by
  induction t with
  | sliceTy e ih => simpa [baseType] using ih
  | arrayTy n e ih => simpa [baseType] using ih
  | intTy n => rfl
  | uintTy n => rfl
  | boolTy => rfl
  | stringTy => rfl
  | addressTy => rfl
  | hashTy => rfl
  | bytesTy => rfl
  | fixedBytesTy n => rfl

theorem scalarKind_arrayLevel (t : AbiTy) (h : scalarKind t = true) : arrayLevel t = 0 := by
  cases t <;> first
    | rfl
    | simp [scalarKind] at h

theorem appendTyped_ok (τ : GoTy) (xs : List GoVal) (v : GoVal) (h : typeOf v = τ) :
    appendTyped τ (.sliceV τ xs) v = some (.sliceV τ (xs ++ [v])) := by
  simp [appendTyped, h]

theorem pushArgDispatch_scalar (bt : AbiTy) (h : scalarKind bt = true) (frame arg : GoVal) :
    pushArgDispatch bt frame arg = appendTyped (elemGoType bt) frame arg := by
  cases bt <;> first
    | rfl
    | simp [scalarKind] at h

theorem exitArrayDispatch1_scalar (bt : AbiTy) (h : scalarKind bt = true) (p c : GoVal) :
    exitArrayDispatch1 bt p c = appendTyped (.sliceT (elemGoType bt)) p c := by
  cases bt <;> first
    | rfl
    | simp [scalarKind] at h

theorem exitArrayDispatch2_scalar (bt : AbiTy) (h : scalarKind bt = true) (p c : GoVal) :
    exitArrayDispatch2 bt p c = appendTyped (.sliceT (.sliceT (elemGoType bt))) p c := by
  cases bt <;> first
    | rfl
    | simp [scalarKind] at h

theorem makeArray_one (bt : AbiTy) (h : scalarKind bt = true) :
    makeArray bt 1 = .ok (.sliceV (elemGoType bt) []) := by
  cases bt <;> first
    | rfl
    | simp [scalarKind] at h

theorem makeArray_two (bt : AbiTy) (h : scalarKind bt = true) :
    makeArray bt 2 = .ok (.sliceV (.sliceT (elemGoType bt)) []) := by
  cases bt <;> first
    | rfl
    | simp [scalarKind] at h

theorem makeArray_big (t : AbiTy) (lvl : Nat) (h : 3 ≤ lvl) :
    makeArray t lvl = .error (.unhandledNestingLevel lvl) := by
  unfold makeArray
  rw [if_neg (by omega), if_neg (by omega)]

/-! ### `pushFrames` lemmas -/

theorem pushFrames_fields (t : AbiTy) (k : Nat) (l : Listener) :
    (pushFrames t k l).args = l.args ∧ (pushFrames t k l).curArg = l.curArg ∧
      (pushFrames t k l).method = l.method ∧ (pushFrames t k l).contract = l.contract ∧
      (pushFrames t k l).maxArrayLevel = l.maxArrayLevel := by
  induction k generalizing l with
  | zero => exact ⟨rfl, rfl, rfl, rfl, rfl⟩
  | succ k ih =>
    unfold pushFrames
    cases makeArray t (k + 1) with
    | error e => exact ⟨rfl, rfl, rfl, rfl, rfl⟩
    | ok f => exact ih _

theorem pushFrames_err (t : AbiTy) (k : Nat) (l : Listener) :
    (pushFrames t k l).err = l.err ∨ (pushFrames t k l).err.isSome := by
  induction k generalizing l with
  | zero => exact .inl rfl
  | succ k ih =>
    unfold pushFrames
    cases makeArray t (k + 1) with
    | error e => exact .inr rfl
    | ok f => exact ih _

theorem pushFrames_one (bt : AbiTy) (h : scalarKind bt = true) (l : Listener) :
    pushFrames bt 1 l = { l with curArray := l.curArray ++ [.sliceV (elemGoType bt) []] } := by
  unfold pushFrames
  rw [makeArray_one bt h]
  rfl

theorem pushFrames_two (bt : AbiTy) (h : scalarKind bt = true) (l : Listener) :
    pushFrames bt 2 l =
      { l with curArray :=
          l.curArray ++ [.sliceV (.sliceT (elemGoType bt)) [], .sliceV (elemGoType bt) []] } := by
  show pushFrames bt (1 + 1) l = _
  unfold pushFrames
  rw [makeArray_two bt h]
  simp only
  rw [pushFrames_one bt h]
  simp

theorem pushFrames_big (t : AbiTy) (lvl : Nat) (h : 3 ≤ lvl) (l : Listener) :
    pushFrames t lvl l = { l with err := some (.unhandledNestingLevel lvl) } := by
  match lvl, h with
  | k + 3, _ =>
    unfold pushFrames
    rw [makeArray_big t (k + 3) (by omega)]

/-! ### Literal event and `pushArg` shape lemmas -/

theorem processEvent_lit (s : Listener) (lit : Lit) (m : Method) (input : AbiTy)
    (h : s.err = none) (hm : s.method = some m) (hi : m.inputs[s.curArg]? = some input) :
    processEvent s (litEvent lit) =
      match coerceLit lit (baseType input) with
      | .error e => some { s with err := some e }
      | .ok v => pushArg s v := by
  cases lit with
  | intL txt =>
    show enterIntArg s txt = _
    simp only [enterIntArg, h, hm, hi]
    cases hb : baseType input <;> simp only [coerceLit]
  | boolL txt =>
    show enterBoolArg s txt = _
    simp only [enterBoolArg, h, hm, hi]
    rfl
  | stringL txt =>
    show enterStringArg s txt = _
    simp only [enterStringArg, h, hm, hi]
    rfl
  | hexL txt =>
    show enterHexArg s txt = _
    simp only [enterHexArg, h, hm, hi]
    cases hb : baseType input <;> simp only [coerceLit]

theorem pushArg_empty (s : Listener) (v : GoVal) (hc : s.curArray = []) :
    pushArg s v = some { s with args := s.args ++ [v] } := by
  unfold pushArg
  simp [hc]

theorem pushArg_frame (s : Listener) (m : Method) (input : AbiTy) (fs xs : List GoVal)
    (v : GoVal) (hm : s.method = some m) (hi : m.inputs[s.curArg]? = some input)
    (hc : s.curArray = fs ++ [.sliceV (elemGoType (baseType input)) xs])
    (hv : typeOf v = elemGoType (baseType input)) :
    pushArg s v =
      some { s with curArray := fs ++ [.sliceV (elemGoType (baseType input)) (xs ++ [v])] } := by
  unfold pushArg
  rw [hc, if_neg (by simp)]
  simp only [hm, hi, List.getLast?_concat,
    pushArgDispatch_scalar _ (baseType_scalar input), appendTyped_ok _ _ _ hv,
    List.dropLast_concat]

/-! ### `ExitArrayArg` shape lemmas -/

theorem dropLastPair (a b : GoVal) : ([a, b] : List GoVal).dropLast = [a] := rfl

theorem dropLastOne (a : GoVal) : ([a] : List GoVal).dropLast = [] := rfl

theorem getLastPair (a b : GoVal) : ([a, b] : List GoVal).getLast? = some b := rfl

theorem getLastOne (a : GoVal) : ([a] : List GoVal).getLast? = some a := rfl

theorem exitArrayArg_single (s : Listener) (x : GoVal) (h : s.err = none)
    (hc : s.curArray = [x]) :
    exitArrayArg s = some { s with args := s.args ++ [x], curArray := [] } := by
  unfold exitArrayArg
  rw [h, hc]

theorem exitArrayArg_empty (s : Listener) (h : s.err = none) (hc : s.curArray = []) :
    exitArrayArg s = none := by
  unfold exitArrayArg
  rw [h, hc]
  cases hm : s.method with
  | none => simp only [hm]
  | some m =>
    cases hi : m.inputs[s.curArg]? with
    | none => simp only [hm, hi]
    | some input =>
      simp only [hm, hi]
      split_ifs <;> rfl

/-- Collapsing the innermost of two frames (the depth-2 flow, where
`maxArrayLevel = 2`): the child is appended into the parent. -/
theorem exitArrayArg_collapse2 (s : Listener) (m : Method) (input : AbiTy)
    (ys : List GoVal) (c : GoVal) (h : s.err = none) (hm : s.method = some m)
    (hi : m.inputs[s.curArg]? = some input) (hmax : s.maxArrayLevel = 2)
    (hc : s.curArray = [.sliceV (.sliceT (elemGoType (baseType input))) ys, c])
    (hcty : typeOf c = .sliceT (elemGoType (baseType input))) :
    exitArrayArg s =
      some { s with curArray := [.sliceV (.sliceT (elemGoType (baseType input))) (ys ++ [c])] } := by
  unfold exitArrayArg
  rw [h, hc]
  simp only [hm, hi, hmax, List.length_cons, List.length_nil, dropLastPair, getLastPair]
  rw [if_pos (by norm_num)]
  simp only [exitArrayDispatch1_scalar _ (baseType_scalar input), getLastOne,
    appendTyped_ok _ _ _ hcty, dropLastOne, List.nil_append]

/-! ### Valid-run machinery -/

theorem getElem?_lt {α : Type} (xs : List α) (i : Nat) (a : α) (h : xs[i]? = some a) :
    i < xs.length := by
  by_contra hge
  rw [List.getElem?_eq_none (by omega)] at h
  exact Option.noConfusion h

theorem run_cons_some (s t : Listener) (e : Event) (es : List Event)
    (h : processEvent s e = some t) : run s (e :: es) = run t es := by
  simp [run, h]

theorem run_append_some (l u : Listener) (p q : List Event) (h : run l p = some u) :
    run l (p ++ q) = run u q := by
  rw [run_append, h]

theorem run_cons_enterArg (s t : Listener) (es : List Event)
    (h : enterArg s = some t) : run s (.enterArg :: es) = run t es :=
  run_cons_some s t .enterArg es h

theorem run_cons_exitArg (s t : Listener) (es : List Event)
    (h : exitArg s = some t) : run s (.exitArg :: es) = run t es :=
  run_cons_some s t .exitArg es h

theorem run_cons_enterArrayArg (s t : Listener) (es : List Event)
    (h : enterArrayArg s = some t) : run s (.enterArrayArg :: es) = run t es :=
  run_cons_some s t .enterArrayArg es h

theorem run_cons_exitArrayArg (s t : Listener) (es : List Event)
    (h : exitArrayArg s = some t) : run s (.exitArrayArg :: es) = run t es :=
  run_cons_some s t .exitArrayArg es h

theorem nodesEvents_cons (nd : Node) (nds : List Node) :
    nodesEvents (nd :: nds) = nodeEvents nd ++ nodesEvents nds := by
  simp [nodesEvents]

theorem nodeEvents_lit (lit : Lit) :
    nodeEvents (.lit lit) = [.enterArg, litEvent lit, .exitArg] := by
  cases lit <;> rfl

theorem nodeEvents_arr (es : List Node) :
    nodeEvents (.arr es) =
      .enterArg :: .enterArrayArg :: (nodesEvents es ++ [.exitArrayArg, .exitArg]) := by
  simp [nodeEvents]

theorem nodeMatches_arr_scalar (es : List Node) (t : AbiTy) (h : scalarKind t = true) :
    nodeMatches (.arr es) t = false := by
  cases t <;> first
    | rfl
    | simp [scalarKind] at h

theorem coerceOk_exists (l : Lit) (bt : AbiTy) (h : coerceOk l bt = true) :
    ∃ v, coerceLit l bt = .ok v ∧ coerceD l bt = v := by
  unfold coerceOk at h
  unfold coerceD
  cases hv : coerceLit l bt with
  | ok v => exact ⟨v, rfl, rfl⟩
  | error e => rw [hv] at h; exact Bool.noConfusion h

theorem enterArrayArg_shape (s : Listener) (m : Method) (input : AbiTy)
    (h : s.err = none) (hm : s.method = some m) (hi : m.inputs[s.curArg]? = some input) :
    enterArrayArg s = some (
      if s.curArray.length = 0 then
        pushFrames (baseType input) (arrayLevel input)
          { s with curArray := [], maxArrayLevel := arrayLevel input }
      else
        pushFrames (baseType input)
          (((arrayLevel input : Int) - (s.curArray.length : Int)).toNat) s) := by
  have hlt := getElem?_lt _ _ _ hi
  unfold enterArrayArg
  rw [h]
  simp only [hm, hi]
  rw [if_neg (by omega)]
  split_ifs <;> rfl

/-- Running the events of a list of well-typed scalar literal elements from
a state whose innermost frame has the matching element type appends their
coerced values to that frame, in order, changing nothing else. -/
theorem run_lits (es : List Node) : ∀ (s : Listener) (m : Method) (input : AbiTy)
    (fs xs : List GoVal), s.err = none → s.method = some m →
    m.inputs[s.curArg]? = some input →
    s.curArray = fs ++ [.sliceV (elemGoType (baseType input)) xs] →
    nodesMatch es (baseType input) = true →
    run s (nodesEvents es) =
      some { s with curArray :=
        fs ++ [.sliceV (elemGoType (baseType input)) (xs ++ nodesValue es (baseType input))] } := by
  induction es with
  | nil =>
    intro s m input fs xs h hm hi hc hmatch
    simp only [nodesEvents, run, nodesValue, List.append_nil, ← hc]
  | cons nd rest ih =>
    intro s m input fs xs h hm hi hc hmatch
    have hscalar := baseType_scalar input
    cases nd with
    | arr es' =>
      rw [nodesMatch, nodeMatches_arr_scalar es' _ hscalar] at hmatch
      exact Bool.noConfusion hmatch
    | lit lit =>
      rw [nodesMatch, nodeMatches] at hmatch
      have hparts := hmatch
      simp only [Bool.and_eq_true] at hparts
      obtain ⟨⟨⟨hlvl, hkind⟩, hcoerce⟩, hrest⟩ := hparts
      obtain ⟨v, hv, hvd⟩ := coerceOk_exists lit _ hcoerce
      have hty := coerceLit_typeOf lit _ v hkind hv
      have hlt := getElem?_lt _ _ _ hi
      have h1 : processEvent s .enterArg = some s := enterArg_ok s m h hm hlt
      have h2 : processEvent s (litEvent lit) =
          some { s with curArray :=
            fs ++ [.sliceV (elemGoType (baseType input)) (xs ++ [v])] } := by
        rw [processEvent_lit s lit m input h hm hi, hv]
        exact pushArg_frame s m input fs xs v hm hi hc hty
      have h3 : processEvent
          { s with curArray := fs ++ [.sliceV (elemGoType (baseType input)) (xs ++ [v])] }
          .exitArg =
          some { s with curArray :=
            fs ++ [.sliceV (elemGoType (baseType input)) (xs ++ [v])] } :=
        exitArg_noinc _ h (by simp)
      rw [nodesEvents_cons, nodeEvents_lit]
      rw [List.cons_append, List.cons_append, List.cons_append, List.nil_append]
      rw [run_cons_some _ _ _ _ h1, run_cons_some _ _ _ _ h2, run_cons_some _ _ _ _ h3]
      rw [ih { s with curArray :=
            fs ++ [.sliceV (elemGoType (baseType input)) (xs ++ [v])] }
          m input fs (xs ++ [v]) h hm hi rfl hrest]
      simp [nodesValue, nodeValue, hvd, List.append_assoc]

/-! ### Structural lemmas on types and nodes -/

theorem baseType_self (t : AbiTy) (h : scalarKind t = true) : baseType t = t := by
  cases t <;> first
    | rfl
    | simp [scalarKind] at h

theorem goValTy_scalar (t : AbiTy) (h : scalarKind t = true) : goValTy t = elemGoType t := by
  cases t <;> first
    | rfl
    | simp [scalarKind] at h

theorem scalar_of_level_zero (t : AbiTy) (h : arrayLevel t = 0) : scalarKind t = true := by
  cases t <;> first
    | rfl
    | simp [arrayLevel] at h

theorem elemTy_of_level_pos (t : AbiTy) (h : 1 ≤ arrayLevel t) :
    ∃ e, elemTy t = some e := by
  cases t <;> first
    | exact ⟨_, rfl⟩
    | simp [arrayLevel] at h

theorem arrayLevel_elem (t e : AbiTy) (he : elemTy t = some e) :
    arrayLevel t = 1 + arrayLevel e := by
  cases t <;> simp [elemTy] at he <;> simp [arrayLevel, he]

theorem baseType_elem (t e : AbiTy) (he : elemTy t = some e) :
    baseType t = baseType e := by
  cases t <;> simp [elemTy] at he <;> simp [baseType, he]

theorem goValTy_elem (t e : AbiTy) (he : elemTy t = some e) :
    goValTy t = .sliceT (goValTy e) := by
  cases t <;> simp [elemTy] at he <;> simp [goValTy, he]

theorem nodeMatches_arr (es : List Node) (t e : AbiTy) (he : elemTy t = some e) :
    nodeMatches (.arr es) t = nodesMatch es e := by
  cases t <;> simp [elemTy] at he <;> simp [nodeMatches, he]

theorem nodeMatches_lit_level (l : Lit) (t : AbiTy) (h : 1 ≤ arrayLevel t) :
    nodeMatches (.lit l) t = false := by
  rw [nodeMatches]
  simp [show arrayLevel t ≠ 0 by omega]

theorem nodeValue_arr (es : List Node) (t e : AbiTy) (he : elemTy t = some e) :
    nodeValue (.arr es) t = .sliceV (goValTy e) (nodesValue es e) := by
  cases t <;> simp [elemTy] at he <;> simp [nodeValue, he]

theorem nodesMatch_cons (nd : Node) (nds : List Node) (e : AbiTy) :
    nodesMatch (nd :: nds) e = (nodeMatches nd e && nodesMatch nds e) := by
  simp [nodesMatch]

theorem nodesValue_cons (nd : Node) (nds : List Node) (e : AbiTy) :
    nodesValue (nd :: nds) e = nodeValue nd e :: nodesValue nds e := by
  simp [nodesValue]

/-! ### Valid depth-1 and depth-2 argument processing -/

/-- A well-typed depth-1 array argument processed from a clean state:
creates one frame, fills it with the coerced elements, appends the finished
container and advances the argument index. -/
theorem run_node_d1 (es : List Node) (s : Listener) (m : Method) (t e : AbiTy)
    (h : s.err = none) (hm : s.method = some m) (hi : m.inputs[s.curArg]? = some t)
    (hc : s.curArray = []) (he : elemTy t = some e) (hlvl : arrayLevel t = 1)
    (hmatch : nodesMatch es e = true) :
    run s (nodeEvents (.arr es)) =
      some { s with
        curArg := s.curArg + 1
        maxArrayLevel := 1
        curArray := []
        args := s.args ++ [.sliceV (elemGoType (baseType t)) (nodesValue es e)] } := by
  have hlt := getElem?_lt _ _ _ hi
  have hbase : baseType t = baseType e := baseType_elem t e he
  have hescalar : scalarKind e = true := by
    have := arrayLevel_elem t e he
    exact scalar_of_level_zero e (by omega)
  have hbe : baseType t = e := by rw [hbase, baseType_self e hescalar]
  have hbscalar := baseType_scalar t
  -- the state after opening the single frame
  have h2 : enterArrayArg s = some { s with
      maxArrayLevel := 1
      curArray := [.sliceV (elemGoType (baseType t)) []] } := by
    rw [enterArrayArg_shape s m t h hm hi, hc]
    simp only [List.length_nil, if_pos rfl, hlvl]
    rw [pushFrames_one _ hbscalar]
    simp
  rw [nodeEvents_arr]
  rw [run_cons_enterArg _ _ _ (enterArg_ok s m h hm hlt)]
  rw [run_cons_enterArrayArg _ _ _ h2]
  rw [run_append]
  rw [run_lits es { s with
      maxArrayLevel := 1
      curArray := [.sliceV (elemGoType (baseType t)) []] } m t [] [] h hm hi
    (by simp) (by rw [hbe]; exact hmatch)]
  simp only [List.nil_append]
  rw [run_cons_exitArrayArg _ _ _ (exitArrayArg_single
    { s with
      maxArrayLevel := 1
      curArray := [.sliceV (elemGoType (baseType t)) (nodesValue es (baseType t))] }
    (.sliceV (elemGoType (baseType t)) (nodesValue es (baseType t))) h rfl)]
  rw [run_cons_exitArg _ _ _
    (exitArg_inc { s with
      maxArrayLevel := 1
      curArray := []
      args := s.args ++ [.sliceV (elemGoType (baseType t)) (nodesValue es (baseType t))] }
      h rfl)]
  rw [run]
  rw [hbe]

/-- One well-typed element of a depth-2 array argument: entered either with
just the outer frame (a fresh inner frame is opened) or with the outer frame
plus an empty inner frame (nothing is opened); in both cases it finishes
with the element's container appended into the outer frame. -/
theorem run_elem_d2 (elem : Node) (s : Listener) (m : Method) (t e : AbiTy)
    (ys : List GoVal) (h : s.err = none) (hm : s.method = some m)
    (hi : m.inputs[s.curArg]? = some t) (he : elemTy t = some e)
    (hlvl : arrayLevel t = 2) (hmax : s.maxArrayLevel = 2)
    (hc : s.curArray = [.sliceV (.sliceT (elemGoType (baseType t))) ys] ∨
      s.curArray = [.sliceV (.sliceT (elemGoType (baseType t))) ys,
        .sliceV (elemGoType (baseType t)) []])
    (hmatch : nodeMatches elem e = true) :
    run s (nodeEvents elem) =
      some { s with curArray :=
        [.sliceV (.sliceT (elemGoType (baseType t))) (ys ++ [nodeValue elem e])] } := by
  have hlt := getElem?_lt _ _ _ hi
  have hbscalar := baseType_scalar t
  have hlvle : arrayLevel e = 1 := by
    have := arrayLevel_elem t e he
    omega
  obtain ⟨e2, he2⟩ := elemTy_of_level_pos e (by omega)
  have hlvle2 : arrayLevel e2 = 0 := by
    have := arrayLevel_elem e e2 he2
    omega
  have hscalar2 : scalarKind e2 = true := scalar_of_level_zero e2 hlvle2
  have hbe2 : baseType t = e2 := by
    rw [baseType_elem t e he, baseType_elem e e2 he2, baseType_self e2 hscalar2]
  cases elem with
  | lit l =>
    rw [nodeMatches_lit_level l e (by omega)] at hmatch
    exact Bool.noConfusion hmatch
  | arr es2 =>
    rw [nodeMatches_arr es2 e e2 he2] at hmatch
    -- state after the (re-)entry of the array context
    have h2 : enterArrayArg s = some { s with curArray :=
        [.sliceV (.sliceT (elemGoType (baseType t))) ys,
          .sliceV (elemGoType (baseType t)) []] } := by
      rw [enterArrayArg_shape s m t h hm hi]
      cases hc with
      | inl hc1 =>
        rw [hc1]
        simp only [List.length_cons, List.length_nil]
        rw [if_neg (by omega), hlvl]
        rw [show (((2 : Nat) : Int) - ((0 + 1 : Nat) : Int)).toNat = 1 by norm_num]
        rw [pushFrames_one _ hbscalar]
        simp [hc1]
      | inr hc2 =>
        rw [hc2]
        simp only [List.length_cons, List.length_nil]
        rw [if_neg (by omega), hlvl]
        rw [show (((2 : Nat) : Int) - ((0 + 1 + 1 : Nat) : Int)).toNat = 0 by norm_num]
        rw [show pushFrames (baseType t) 0 s = s from rfl]
        rw [← hc2]
    rw [nodeEvents_arr]
    rw [run_cons_enterArg _ _ _ (enterArg_ok s m h hm hlt)]
    rw [run_cons_enterArrayArg _ _ _ h2]
    rw [run_append]
    rw [run_lits es2 { s with curArray :=
        [.sliceV (.sliceT (elemGoType (baseType t))) ys,
          .sliceV (elemGoType (baseType t)) []] } m t
      [.sliceV (.sliceT (elemGoType (baseType t))) ys] [] h hm hi rfl
      (by rw [hbe2]; exact hmatch)]
    simp only [List.nil_append, List.singleton_append]
    rw [run_cons_exitArrayArg _ _ _ (exitArrayArg_collapse2
      { s with curArray :=
        [.sliceV (.sliceT (elemGoType (baseType t))) ys,
          .sliceV (elemGoType (baseType t)) (nodesValue es2 (baseType t))] } m t ys
      (.sliceV (elemGoType (baseType t)) (nodesValue es2 (baseType t)))
      h hm hi hmax rfl rfl)]
    rw [run_cons_exitArg _ _ _ (exitArg_noinc
      { s with curArray :=
        [.sliceV (.sliceT (elemGoType (baseType t)))
          (ys ++ [.sliceV (elemGoType (baseType t)) (nodesValue es2 (baseType t))])] }
      h (by simp))]
    rw [run]
    rw [nodeValue_arr es2 e e2 he2, goValTy_scalar e2 hscalar2, hbe2]

/-- A list of well-typed depth-2 elements processed from a state holding
just the outer frame appends each element's container to the outer frame,
in order. -/
theorem run_elems_d2 (elems : List Node) : ∀ (s : Listener) (m : Method) (t e : AbiTy)
    (ys : List GoVal), s.err = none → s.method = some m →
    m.inputs[s.curArg]? = some t → elemTy t = some e → arrayLevel t = 2 →
    s.maxArrayLevel = 2 →
    s.curArray = [.sliceV (.sliceT (elemGoType (baseType t))) ys] →
    nodesMatch elems e = true →
    run s (nodesEvents elems) =
      some { s with curArray :=
        [.sliceV (.sliceT (elemGoType (baseType t))) (ys ++ nodesValue elems e)] } := by
  induction elems with
  | nil =>
    intro s m t e ys h hm hi he hlvl hmax hc hmatch
    simp only [nodesEvents, run, nodesValue, List.append_nil, ← hc]
  | cons el rest ih =>
    intro s m t e ys h hm hi he hlvl hmax hc hmatch
    rw [nodesMatch_cons] at hmatch
    simp only [Bool.and_eq_true] at hmatch
    obtain ⟨hel, hrest⟩ := hmatch
    have hstep : run s (nodeEvents el) = some { s with curArray :=
        [.sliceV (.sliceT (elemGoType (baseType t))) (ys ++ [nodeValue el e])] } :=
      run_elem_d2 el s m t e ys h hm hi he hlvl hmax (.inl hc) hel
    rw [nodesEvents_cons, run_append_some _ _ _ _ hstep]
    rw [ih { s with curArray :=
        [.sliceV (.sliceT (elemGoType (baseType t))) (ys ++ [nodeValue el e])] }
      m t e (ys ++ [nodeValue el e]) h hm hi he hlvl hmax rfl hrest]
    rw [nodesValue_cons]
    simp [List.append_assoc]

/-- A well-typed, non-empty depth-2 array argument processed from a clean
state: creates both frames, builds the nested containers and appends the
finished argument. -/
theorem run_node_d2 (es : List Node) (s : Listener) (m : Method) (t e : AbiTy)
    (hne : es ≠ []) (h : s.err = none) (hm : s.method = some m)
    (hi : m.inputs[s.curArg]? = some t) (hc : s.curArray = [])
    (he : elemTy t = some e) (hlvl : arrayLevel t = 2)
    (hmatch : nodesMatch es e = true) :
    run s (nodeEvents (.arr es)) =
      some { s with
        curArg := s.curArg + 1
        maxArrayLevel := 2
        curArray := []
        args := s.args ++
          [.sliceV (.sliceT (elemGoType (baseType t))) (nodesValue es e)] } := by
  have hlt := getElem?_lt _ _ _ hi
  have hbscalar := baseType_scalar t
  match es, hne with
  | el :: rest, _ =>
    rw [nodesMatch_cons] at hmatch
    simp only [Bool.and_eq_true] at hmatch
    obtain ⟨hel, hrest⟩ := hmatch
    have h2 : enterArrayArg s = some { s with
        maxArrayLevel := 2
        curArray := [.sliceV (.sliceT (elemGoType (baseType t))) [],
          .sliceV (elemGoType (baseType t)) []] } := by
      rw [enterArrayArg_shape s m t h hm hi, hc]
      simp only [List.length_nil, if_pos rfl, hlvl]
      rw [pushFrames_two _ hbscalar]
      simp
    have hstep1 : run { s with
        maxArrayLevel := 2
        curArray := [.sliceV (.sliceT (elemGoType (baseType t))) [],
          .sliceV (elemGoType (baseType t)) []] } (nodeEvents el) =
        some { s with
          maxArrayLevel := 2
          curArray := [.sliceV (.sliceT (elemGoType (baseType t))) [nodeValue el e]] } :=
      run_elem_d2 el { s with
        maxArrayLevel := 2
        curArray := [.sliceV (.sliceT (elemGoType (baseType t))) [],
          .sliceV (elemGoType (baseType t)) []] } m t e [] h hm hi he hlvl rfl
        (.inr rfl) hel
    have hstep2 : run { s with
        maxArrayLevel := 2
        curArray := [.sliceV (.sliceT (elemGoType (baseType t))) [nodeValue el e]] }
        (nodesEvents rest) =
        some { s with
          maxArrayLevel := 2
          curArray := [.sliceV (.sliceT (elemGoType (baseType t)))
            ([nodeValue el e] ++ nodesValue rest e)] } :=
      run_elems_d2 rest { s with
        maxArrayLevel := 2
        curArray := [.sliceV (.sliceT (elemGoType (baseType t))) [nodeValue el e]] }
        m t e [nodeValue el e] h hm hi he hlvl rfl rfl hrest
    rw [nodeEvents_arr]
    rw [run_cons_enterArg _ _ _ (enterArg_ok s m h hm hlt)]
    rw [run_cons_enterArrayArg _ _ _ h2]
    rw [nodesEvents_cons, List.append_assoc]
    rw [run_append_some _ _ _ _ hstep1]
    rw [run_append_some _ _ _ _ hstep2]
    rw [run_cons_exitArrayArg _ _ _ (exitArrayArg_single { s with
        maxArrayLevel := 2
        curArray := [.sliceV (.sliceT (elemGoType (baseType t)))
          ([nodeValue el e] ++ nodesValue rest e)] }
      (.sliceV (.sliceT (elemGoType (baseType t)))
        ([nodeValue el e] ++ nodesValue rest e)) h rfl)]
    rw [run_cons_exitArg _ _ _ (exitArg_inc { s with
        maxArrayLevel := 2
        curArray := []
        args := s.args ++ [.sliceV (.sliceT (elemGoType (baseType t)))
          ([nodeValue el e] ++ nodesValue rest e)] } h rfl)]
    rw [run]
    rw [nodesValue_cons]
    simp

/-- Any single well-typed argument node of declared depth at most 2 (and
non-empty when the depth is exactly 2) processed from a clean state
completes without error or panic, appends exactly its intended value and
advances the argument index by one. -/
theorem run_node_valid (nd : Node) (s : Listener) (m : Method) (t : AbiTy)
    (h : s.err = none) (hm : s.method = some m) (hi : m.inputs[s.curArg]? = some t)
    (hc : s.curArray = []) (hd : arrayLevel t ≤ 2) (hmatch : nodeMatches nd t = true)
    (hne : arrayLevel t = 2 → emptyArr nd = false) :
    ∃ u, run s (nodeEvents nd) = some u ∧ u.err = none ∧ u.curArray = [] ∧
      u.curArg = s.curArg + 1 ∧ u.method = s.method ∧ u.contract = s.contract ∧
      u.args = s.args ++ [nodeValue nd t] := by
  have hlt := getElem?_lt _ _ _ hi
  have hcase : arrayLevel t = 0 ∨ arrayLevel t = 1 ∨ arrayLevel t = 2 := by omega
  rcases hcase with hlvl | hlvl | hlvl
  · -- scalar parameter: the node must be a literal
    have hscalar := scalar_of_level_zero t hlvl
    have hbt : baseType t = t := baseType_self t hscalar
    cases nd with
    | arr es =>
      rw [nodeMatches_arr_scalar es t hscalar] at hmatch
      exact Bool.noConfusion hmatch
    | lit l =>
      rw [nodeMatches] at hmatch
      simp only [Bool.and_eq_true] at hmatch
      obtain ⟨⟨_, hkind⟩, hcoerce⟩ := hmatch
      obtain ⟨v, hv, hvd⟩ := coerceOk_exists l t hcoerce
      have h2 : processEvent s (litEvent l) = some { s with args := s.args ++ [v] } := by
        rw [processEvent_lit s l m t h hm hi, hbt, hv]
        exact pushArg_empty s v hc
      refine ⟨{ s with args := s.args ++ [v], curArg := s.curArg + 1 }, ?_, by simp [h],
        by simp [hc], rfl, rfl, rfl, by simp [nodeValue, hvd]⟩
      rw [nodeEvents_lit]
      rw [run_cons_enterArg _ _ _ (enterArg_ok s m h hm hlt)]
      rw [run_cons_some _ _ _ _ h2]
      rw [run_cons_exitArg _ _ _
        (exitArg_inc { s with args := s.args ++ [v] } h (by simp [hc]))]
      rw [run]
  · -- depth-1 parameter: the node must be an array of literals
    obtain ⟨e, he⟩ := elemTy_of_level_pos t (by omega)
    have hlvle : arrayLevel e = 0 := by
      have := arrayLevel_elem t e he
      omega
    have hescalar := scalar_of_level_zero e hlvle
    have hbe : baseType t = e := by
      rw [baseType_elem t e he, baseType_self e hescalar]
    cases nd with
    | lit l =>
      rw [nodeMatches_lit_level l t (by omega)] at hmatch
      exact Bool.noConfusion hmatch
    | arr es =>
      rw [nodeMatches_arr es t e he] at hmatch
      refine ⟨_, run_node_d1 es s m t e h hm hi hc he hlvl hmatch, by simp [h],
        by simp, rfl, rfl, rfl, ?_⟩
      rw [nodeValue_arr es t e he, goValTy_scalar e hescalar, hbe]
  · -- depth-2 parameter: the node must be a non-empty array of arrays
    obtain ⟨e, he⟩ := elemTy_of_level_pos t (by omega)
    obtain ⟨e2, he2⟩ := elemTy_of_level_pos e
      (by have := arrayLevel_elem t e he; omega)
    have hlvle2 : arrayLevel e2 = 0 := by
      have := arrayLevel_elem t e he
      have := arrayLevel_elem e e2 he2
      omega
    have hscalar2 := scalar_of_level_zero e2 hlvle2
    have hbe2 : baseType t = e2 := by
      rw [baseType_elem t e he, baseType_elem e e2 he2, baseType_self e2 hscalar2]
    cases nd with
    | lit l =>
      rw [nodeMatches_lit_level l t (by omega)] at hmatch
      exact Bool.noConfusion hmatch
    | arr es =>
      have hes : es ≠ [] := by
        intro hnil
        have := hne hlvl
        rw [hnil] at this
        simp [emptyArr] at this
      rw [nodeMatches_arr es t e he] at hmatch
      refine ⟨_, run_node_d2 es s m t e hes h hm hi hc he hlvl hmatch, by simp [h],
        by simp, rfl, rfl, rfl, ?_⟩
      rw [nodeValue_arr es t e he, goValTy_elem e e2 he2, goValTy_scalar e2 hscalar2, hbe2]

/-- A whole list of valid top-level arguments processed from a clean state:
no error, no panic, each argument contributes exactly its intended value. -/
theorem run_nodes_valid (nds : List Node) : ∀ (s : Listener) (m : Method),
    s.err = none → s.method = some m → s.curArray = [] →
    validArgs nds (m.inputs.drop s.curArg) = true →
    ∃ u, run s (nodesEvents nds) = some u ∧ u.err = none ∧ u.curArray = [] ∧
      u.curArg = s.curArg + nds.length ∧ u.method = s.method ∧ u.contract = s.contract ∧
      u.args = s.args ++ argValues nds (m.inputs.drop s.curArg) := by
  induction nds with
  | nil =>
    intro s m h hm hc _
    exact ⟨s, rfl, h, hc, by simp, rfl, rfl, by simp [argValues]⟩
  | cons nd rest ih =>
    intro s m h hm hc hv
    cases hdrop : m.inputs.drop s.curArg with
    | nil => rw [hdrop] at hv; exact Bool.noConfusion hv
    | cons t ts =>
      rw [hdrop] at hv
      rw [validArgs] at hv
      simp only [Bool.and_eq_true] at hv
      obtain ⟨⟨⟨hble, hmatch⟩, hnemp⟩, hrest⟩ := hv
      have hd : arrayLevel t ≤ 2 := Nat.le_of_ble_eq_true hble
      have hi : m.inputs[s.curArg]? = some t := by
        rw [← List.head?_drop, hdrop]
        rfl
      have hts : m.inputs.drop (s.curArg + 1) = ts := by
        rw [← List.drop_drop 1 s.curArg m.inputs, hdrop]
        rfl
      obtain ⟨u1, hrun1, hu1err, hu1c, hu1arg, hu1m, hu1con, hu1args⟩ :=
        run_node_valid nd s m t h hm hi hc hd hmatch
          (by simp only [Bool.not_and, Bool.or_eq_true, Bool.not_eq_true',
                decide_eq_false_iff_not] at hnemp
              intro h2
              cases hnemp with
              | inl hl => simp at hl; exact absurd h2 hl
              | inr hr => exact hr)
      obtain ⟨u, hrun, huerr, huc, huarg, hum, hucon, huargs⟩ :=
        ih u1 m hu1err (by rw [hu1m, hm]) hu1c
          (by rw [hu1arg, hts]; exact hrest)
      refine ⟨u, ?_, huerr, huc, ?_, by rw [hum, hu1m], by rw [hucon, hu1con], ?_⟩
      · rw [nodesEvents_cons, run_append_some _ _ _ _ hrun1, hrun]
      · rw [huarg, hu1arg]
        simp [List.length_cons]
        omega
      · rw [huargs, hu1args, hu1arg, hts]
        simp [argValues, List.append_assoc]

/-- A valid call (resolvable name, pairwise valid arguments) parses without
error or panic into exactly the intended values. -/
theorem runCall_valid (c : Contract) (name : String) (nds : List Node) (m : Method)
    (hres : resolveName c name = some m) (hv : validArgs nds m.inputs = true) :
    ∃ u, runCall c name nds = some u ∧ u.err = none ∧ u.curArray = [] ∧
      u.curArg = nds.length ∧ u.method = some m ∧
      u.args = argValues nds m.inputs := by
  have h1 : enterFuncName (newMethodListener c) name =
      { newMethodListener c with method := some m } :=
    enterFuncName_resolved (newMethodListener c) name m hres
  obtain ⟨u, hrun, huerr, huc, huarg, hum, _, huargs⟩ :=
    run_nodes_valid nds { newMethodListener c with method := some m } m rfl rfl rfl
      (by simpa [newMethodListener] using hv)
  refine ⟨u, ?_, huerr, huc, by simpa [newMethodListener] using huarg,
    by rw [hum], by simpa [newMethodListener] using huargs⟩
  unfold runCall callEvents
  rw [run_cons_some _ _ _ _ (show processEvent (newMethodListener c) (.funcName name) =
    some { newMethodListener c with method := some m } by rw [processEvent, h1])]
  exact hrun

/-! ### Shape lemmas for the output-bound induction -/

theorem nodeSize_pos (nd : Node) : 1 ≤ nodeSize nd := by
  cases nd <;> simp [nodeSize]

theorem boundAll_nil (n : Nat) (s : Listener) (h : s.args.length ≤ n) :
    boundAll n s [] := by
  intro p q t hpq hrun
  have hp : p = [] := by
    cases p with
    | nil => rfl
    | cons x xs => exact absurd hpq.symm (by simp)
  rw [hp] at hrun
  cases hrun
  exact h

theorem boundAll_cons (n : Nat) (s : Listener) (e : Event) (es : List Event)
    (h : s.args.length ≤ n)
    (hnext : ∀ t, processEvent s e = some t → boundAll n t es) :
    boundAll n s (e :: es) := by
  intro p q t hpq hrun
  cases p with
  | nil =>
    cases hrun
    exact h
  | cons p0 ps =>
    rw [List.cons_append] at hpq
    injection hpq with hpe hpq'
    rw [← hpe] at hrun
    cases hpr : processEvent s e with
    | none => rw [run, hpr] at hrun; exact Option.noConfusion hrun
    | some t1 =>
      rw [run, hpr] at hrun
      exact hnext t1 hpr ps q t hpq' hrun

theorem boundAll_append (n : Nat) (s : Listener) (a b : List Event)
    (ha : boundAll n s a)
    (hb : ∀ t, run s a = some t → boundAll n t b) :
    boundAll n s (a ++ b) := by
  intro p q t hpq hrun
  rcases List.append_eq_append_iff.mp hpq.symm with ⟨w, hw1, hw2⟩ | ⟨w, hw1, hw2⟩
  · -- a = p ++ w: p is a prefix of a
    exact ha p w t hw1 hrun
  · -- p = a ++ w, so run through a first
    rw [hw1, run_append] at hrun
    cases hra : run s a with
    | none => rw [hra] at hrun; exact Option.noConfusion hrun
    | some t1 =>
      rw [hra] at hrun
      exact hb t1 hra w q t hw2 hrun

theorem stepConc_frozen (m : Method) (s : Listener) (e : PErr) (herr : s.err = some e)
    (hargs : s.args.length ≤ m.inputs.length) (evs : List Event) :
    StepConc m s evs := by
  constructor
  · intro p q t hpq hrun
    obtain ⟨t', hrun', ha, _, _, _⟩ := run_frozen s e herr p
    rw [hrun'] at hrun
    cases hrun
    rw [ha]
    exact hargs
  · intro t hrun
    obtain ⟨t', hrun', ha, hcg, hca, hsome⟩ := run_frozen s e herr evs
    rw [hrun'] at hrun
    cases hrun
    refine ⟨⟨by rw [ha]; exact hargs, fun hn => ?_⟩, fun hn => ?_⟩
    · rw [hn] at hsome; exact Bool.noConfusion hsome
    · rw [hn] at hsome; exact Bool.noConfusion hsome

theorem pushArg_shape (s : Listener) (v : GoVal) :
    pushArg s v = none ∨
      (s.curArray = [] ∧ pushArg s v = some { s with args := s.args ++ [v] }) ∨
      (s.curArray ≠ [] ∧ ∃ ca, ca ≠ [] ∧ pushArg s v = some { s with curArray := ca }) := by
  cases hc : s.curArray with
  | nil => exact .inr (.inl ⟨rfl, by rw [pushArg_empty s v hc, hc]⟩)
  | cons f fs =>
    refine .imp id (fun hsome => .inr ⟨by simp, hsome⟩) ?_
    show pushArg s v = none ∨ ∃ ca, ca ≠ [] ∧ pushArg s v = some { s with curArray := ca }
    unfold pushArg
    rw [hc, if_neg (by simp)]
    cases hm : s.method with
    | none => exact .inl rfl
    | some m =>
      cases hin : m.inputs[s.curArg]? with
      | none => exact .inl (by simp [hm, hin])
      | some input =>
        cases hgl : (f :: fs).getLast? with
        | none => exact .inl (by simp [hm, hin, hgl])
        | some frame =>
          cases hdp : pushArgDispatch (baseType input) frame v with
          | none => exact .inl (by simp [hm, hin, hgl, hdp])
          | some nf =>
            refine .inr ⟨(f :: fs).dropLast ++ [nf], by simp, ?_⟩
            simp [hm, hin, hgl, hdp]

theorem enterArrayArg_effect (s : Listener) (m : Method) (h : s.err = none)
    (hm : s.method = some m) :
    ∃ t, enterArrayArg s = some t ∧ t.args = s.args ∧ t.curArg = s.curArg ∧
      t.method = s.method ∧ t.contract = s.contract := by
  unfold enterArrayArg
  rw [h]
  simp only [hm]
  by_cases hge : m.inputs.length ≤ s.curArg
  · rw [if_pos hge]
    exact ⟨_, rfl, rfl, rfl, rfl, rfl⟩
  · rw [if_neg hge]
    have hlt : s.curArg < m.inputs.length := by omega
    rw [List.getElem?_eq_getElem hlt]
    simp only
    split_ifs with hlen
    · exact ⟨_, rfl, (pushFrames_fields _ _ _).1, (pushFrames_fields _ _ _).2.1,
        (pushFrames_fields _ _ _).2.2.1, (pushFrames_fields _ _ _).2.2.2.1⟩
    · exact ⟨_, rfl, (pushFrames_fields _ _ _).1, (pushFrames_fields _ _ _).2.1,
        ((pushFrames_fields _ _ _).2.2.1).trans hm, (pushFrames_fields _ _ _).2.2.2.1⟩

theorem exitArrayArg_deep (s : Listener) (f f2 : GoVal) (fs2 : List GoVal)
    (h : s.err = none) (hc : s.curArray = f :: f2 :: fs2) :
    exitArrayArg s = none ∨
      ∃ ca, ca ≠ [] ∧ exitArrayArg s = some { s with curArray := ca } := by
  unfold exitArrayArg
  rw [h, hc]
  cases hm : s.method with
  | none => exact .inl rfl
  | some m =>
    cases hin : m.inputs[s.curArg]? with
    | none => exact .inl (by simp [hin])
    | some input =>
      have hds : ∀ o : Option Listener,
          (match m.inputs[s.curArg]? with
            | none => none
            | some _ => o) = o := by
        intro o
        rw [hin]
      by_cases h1 : ((s.maxArrayLevel : Int) - ((fs2.length : Int) + 1)) = 1
      · cases hgl : (f :: (f2 :: fs2).dropLast).getLast? with
        | none =>
          cases hcl : (f :: f2 :: fs2).getLast? with
          | none => exact .inl (by simp [hin, hgl, hcl, h1])
          | some child => exact .inl (by simp [hin, hgl, hcl, h1])
        | some parent =>
          cases hcl : (f :: f2 :: fs2).getLast? with
          | none => exact .inl (by simp [hin, hgl, hcl, h1])
          | some child =>
            cases hdp : exitArrayDispatch1 (baseType input) parent child with
            | none => exact .inl (by simp [hin, hgl, hcl, hdp, h1])
            | some np =>
              refine .inr ⟨(f :: f2 :: fs2).dropLast.dropLast ++ [np], by simp, ?_⟩
              simp [hin, hgl, hcl, hdp, h1]
      · by_cases h2 : ((s.maxArrayLevel : Int) - ((fs2.length : Int) + 1)) = 2
        · cases hgl : (f :: (f2 :: fs2).dropLast).getLast? with
          | none =>
            cases hcl : (f :: f2 :: fs2).getLast? with
            | none => exact .inl (by simp [hin, hgl, hcl, h1, h2])
            | some child => exact .inl (by simp [hin, hgl, hcl, h1, h2])
          | some parent =>
            cases hcl : (f :: f2 :: fs2).getLast? with
            | none => exact .inl (by simp [hin, hgl, hcl, h1, h2])
            | some child =>
              cases hdp : exitArrayDispatch2 (baseType input) parent child with
              | none => exact .inl (by simp [hin, hgl, hcl, hdp, h1, h2])
              | some np =>
                refine .inr ⟨(f :: f2 :: fs2).dropLast.dropLast ++ [np], by simp, ?_⟩
                simp [hin, hgl, hcl, hdp, h1, h2]
        · refine .inr ⟨(f :: f2 :: fs2).dropLast, by simp, ?_⟩
          simp [hin, h1, h2]

theorem exitArrayArg_shape (s : Listener) (h : s.err = none) (t : Listener)
    (hrun : exitArrayArg s = some t) :
    (∃ x, s.curArray = [x] ∧ t = { s with args := s.args ++ [x], curArray := [] }) ∨
      (2 ≤ s.curArray.length ∧ t.args = s.args ∧ t.curArg = s.curArg ∧
        t.err = none ∧ t.method = s.method ∧ t.curArray ≠ []) := by
  cases hc : s.curArray with
  | nil =>
    rw [exitArrayArg_empty s h hc] at hrun
    exact Option.noConfusion hrun
  | cons f fs =>
    cases fs with
    | nil =>
      left
      refine ⟨f, rfl, ?_⟩
      rw [exitArrayArg_single s f h hc] at hrun
      injection hrun with hinj
      exact hinj.symm
    | cons f2 fs2 =>
      right
      rcases exitArrayArg_deep s f f2 fs2 h hc with hnone | ⟨ca, hca, hsome⟩
      · rw [hnone] at hrun
        exact Option.noConfusion hrun
      · rw [hsome] at hrun
        have ht : t = { s with curArray := ca } := by
          injection hrun with hinj
          exact hinj.symm
        rw [ht]
        exact ⟨by simp [hc], rfl, rfl, h, rfl, by simpa using hca⟩

/-! ### Composition lemmas for the output-bound induction -/

theorem extraRel_refl (n : Nat) (s : Listener) : ExtraRel n s s :=
  fun hn => ⟨hn, by omega, .inr (.inr ⟨rfl, rfl⟩)⟩

theorem extraRel_trans (n : Nat) (s u t : Listener)
    (h1 : ExtraRel n s u) (h2 : ExtraRel n u t) : ExtraRel n s t := by
  intro hn
  obtain ⟨hu, hd2, hc2⟩ := h2 hn
  obtain ⟨hs, hd1, hc1⟩ := h1 hu
  refine ⟨hs, by omega, ?_⟩
  rcases hc2 with h | h | ⟨hg, hca⟩
  · exact .inl h
  · exact .inr (.inl h)
  · rcases hc1 with h' | h' | ⟨hg', hca'⟩
    · exact .inl (hca.trans h')
    · exact .inr (.inl (hg ▸ h'))
    · exact .inr (.inr ⟨hg.trans hg', hca.trans hca'⟩)

theorem stepConc_nil (m : Method) (s : Listener) (hB : Binv m s) : StepConc m s [] := by
  refine ⟨boundAll_nil _ s hB.1, fun t hrun => ?_⟩
  cases hrun
  exact ⟨hB, extraRel_refl _ s⟩

theorem stepConc_append (m : Method) (s : Listener) (a b : List Event)
    (h1 : StepConc m s a) (h2 : ∀ t, run s a = some t → StepConc m t b) :
    StepConc m s (a ++ b) := by
  constructor
  · exact boundAll_append _ _ _ _ h1.1 (fun t h => (h2 t h).1)
  · intro t hrun
    rw [run_append] at hrun
    cases hra : run s a with
    | none => rw [hra] at hrun; exact Option.noConfusion hrun
    | some u =>
      rw [hra] at hrun
      obtain ⟨hBt, hex2⟩ := (h2 u hra).2 t hrun
      obtain ⟨hBu, hex1⟩ := h1.2 u hra
      exact ⟨hBt, extraRel_trans _ _ _ _ hex1 hex2⟩

theorem stepConc_panic (m : Method) (s : Listener) (ev : Event) (evs : List Event)
    (he : processEvent s ev = none) (hargs : s.args.length ≤ m.inputs.length) :
    StepConc m s (ev :: evs) := by
  constructor
  · refine boundAll_cons _ _ _ _ hargs (fun t hpe => ?_)
    rw [he] at hpe
    exact Option.noConfusion hpe
  · intro t hrun
    rw [run, he] at hrun
    exact Option.noConfusion hrun

/-- Error set after the first event of a span: the rest of the span drains
frozen, the whole span is bounded and the relation holds vacuously. -/
theorem stepConc_err_after_one (m : Method) (s s1 : Listener) (ev : Event)
    (evs : List Event) (he1 : processEvent s ev = some s1)
    (hargs : s.args.length ≤ m.inputs.length)
    (hargs1 : s1.args.length = s.args.length)
    (e : PErr) (herr1 : s1.err = some e) :
    StepConc m s (ev :: evs) := by
  constructor
  · refine boundAll_cons _ _ _ _ hargs (fun u hpe => ?_)
    rw [he1] at hpe
    injection hpe with h'
    rw [← h']
    exact (stepConc_frozen m s1 e herr1 (by rw [hargs1]; exact hargs) evs).1
  · intro t hrun
    rw [run_cons_some _ _ _ _ he1] at hrun
    obtain ⟨t', hrun', ha, hg, hca, hsome⟩ := run_frozen s1 e herr1 evs
    rw [hrun'] at hrun
    injection hrun with hinj
    subst hinj
    have hne : t'.err ≠ none := by
      intro hn
      rw [hn] at hsome
      exact Bool.noConfusion hsome
    exact ⟨⟨by rw [ha, hargs1]; exact hargs, fun hn => absurd hn hne⟩,
      fun hn => absurd hn hne⟩

theorem stepConc_cons_state (m : Method) (s s1 : Listener) (ev : Event)
    (evs : List Event) (he : processEvent s ev = some s1)
    (hargs : s.args.length ≤ m.inputs.length)
    (hex : ExtraRel m.inputs.length s s1)
    (h2 : StepConc m s1 evs) : StepConc m s (ev :: evs) := by
  constructor
  · refine boundAll_cons _ _ _ _ hargs (fun u hpe => ?_)
    rw [he] at hpe
    injection hpe with h'
    rw [← h']
    exact h2.1
  · intro t hrun
    rw [run_cons_some _ _ _ _ he] at hrun
    obtain ⟨hBt, hex2⟩ := h2.2 t hrun
    exact ⟨hBt, extraRel_trans _ _ _ _ hex hex2⟩

/-- One scalar literal argument node satisfies the bound conclusions from
any invariant state. -/
theorem stepConc_lit (l : Lit) (s : Listener) (m : Method) (hB : Binv m s) :
    StepConc m s (nodeEvents (.lit l)) := by
  rw [nodeEvents_lit]
  cases herr : s.err with
  | some e => exact stepConc_frozen m s e herr hB.1 _
  | none =>
    obtain ⟨hargsn, himp⟩ := hB
    obtain ⟨hm, hac, hcn⟩ := himp herr
    by_cases hlt : s.curArg < m.inputs.length
    · have he1 : processEvent s .enterArg = some s := enterArg_ok s m herr hm hlt
      have hi : m.inputs[s.curArg]? = some m.inputs[s.curArg] :=
        List.getElem?_eq_getElem hlt
      have hlitev := processEvent_lit s l m _ herr hm hi
      cases hcv : coerceLit l (baseType m.inputs[s.curArg]) with
      | error e =>
        refine stepConc_cons_state m s s .enterArg _ he1 hargsn (extraRel_refl _ _) ?_
        exact stepConc_err_after_one m s { s with err := some e } (litEvent l) _
          (by rw [hlitev, hcv]) hargsn rfl e rfl
      | ok v =>
        refine stepConc_cons_state m s s .enterArg _ he1 hargsn (extraRel_refl _ _) ?_
        rcases pushArg_shape s v with hnone | ⟨hcemp, hpe⟩ | ⟨hcne, ca, hcane, hpe⟩
        · exact stepConc_panic m s (litEvent l) _ (by rw [hlitev, hcv]; exact hnone) hargsn
        · -- appended to the output list, then the index advances
          have he2 : processEvent s (litEvent l) = some { s with args := s.args ++ [v] } := by
            rw [hlitev, hcv]
            exact hpe
          have he3 : processEvent { s with args := s.args ++ [v] } .exitArg =
              some { s with args := s.args ++ [v], curArg := s.curArg + 1 } :=
            exitArg_inc { s with args := s.args ++ [v] } herr hcemp
          constructor
          · refine boundAll_cons _ _ _ _ hargsn (fun u hpe1 => ?_)
            rw [he2] at hpe1
            injection hpe1 with h'
            rw [← h']
            refine boundAll_cons _ _ _ _ (by simp; omega) (fun w hpe2 => ?_)
            rw [he3] at hpe2
            injection hpe2 with h''
            rw [← h'']
            exact boundAll_nil _ _ (by simp; omega)
          · intro t hrun
            rw [run_cons_some _ _ _ _ he2, run_cons_some _ _ _ _ he3, run] at hrun
            injection hrun with hinj
            subst hinj
            refine ⟨⟨by simp; omega, fun _ => ⟨hm, by simp; omega, by simp; omega⟩⟩,
              fun _ => ⟨herr, by simp; omega, .inl hcemp⟩⟩
        · -- pushed into the innermost frame: the stack stays non-empty
          have he2 : processEvent s (litEvent l) = some { s with curArray := ca } := by
            rw [hlitev, hcv]
            exact hpe
          have he3 : processEvent { s with curArray := ca } .exitArg =
              some { s with curArray := ca } :=
            exitArg_noinc { s with curArray := ca } herr hcane
          have hBca : Binv m { s with curArray := ca } :=
            ⟨hargsn, fun _ => ⟨hm, hac, hcn⟩⟩
          refine stepConc_cons_state m s { s with curArray := ca } (litEvent l) _ he2
            hargsn (fun _ => ⟨herr, rfl, .inr (.inl hlt)⟩) ?_
          refine stepConc_cons_state m { s with curArray := ca } { s with curArray := ca }
            .exitArg _ he3 hargsn (extraRel_refl _ _) ?_
          exact stepConc_nil m _ hBca
    · have hge : m.inputs.length ≤ s.curArg := by omega
      exact stepConc_err_after_one m s
        { s with err := some (.tooManyArguments m.inputs.length) } .enterArg _
        (enterArg_toomany s m herr hm hge) hargsn rfl _ rfl

/-- One array argument node satisfies the bound conclusions from any
invariant state, given the conclusions for its element list. -/
theorem stepConc_arr (es : List Node) (s : Listener) (m : Method) (hB : Binv m s)
    (hes : ∀ s2, Binv m s2 → StepConc m s2 (nodesEvents es)) :
    StepConc m s (nodeEvents (.arr es)) := by
  rw [nodeEvents_arr]
  cases herr : s.err with
  | some e => exact stepConc_frozen m s e herr hB.1 _
  | none =>
    obtain ⟨hargsn, himp⟩ := hB
    obtain ⟨hm, hac, hcn⟩ := himp herr
    by_cases hlt : s.curArg < m.inputs.length
    · have he1 : processEvent s .enterArg = some s := enterArg_ok s m herr hm hlt
      obtain ⟨t2, he2, ha2, hg2, hm2, hco2⟩ := enterArrayArg_effect s m herr hm
      have hB2 : Binv m t2 := ⟨by rw [ha2]; exact hargsn,
        fun _ => ⟨by rw [hm2, hm], by rw [ha2, hg2]; exact hac, by rw [hg2]; exact hcn⟩⟩
      have htail : ∀ t3, run t2 (nodesEvents es) = some t3 →
          StepConc m t3 [.exitArrayArg, .exitArg] := by
        intro t3 hrun3
        obtain ⟨hBt3, hex3⟩ := (hes t2 hB2).2 t3 hrun3
        cases herr3 : t3.err with
        | some e3 => exact stepConc_frozen m t3 e3 herr3 hBt3.1 _
        | none =>
          obtain ⟨hm3, hac3, hcn3⟩ := hBt3.2 herr3
          obtain ⟨_, hd3, hcl3⟩ := hex3 herr3
          cases hex4 : exitArrayArg t3 with
          | none => exact stepConc_panic m t3 .exitArrayArg _ hex4 hBt3.1
          | some t4 =>
            rcases exitArrayArg_shape t3 herr3 t4 hex4 with
              ⟨x, hc3, ht4⟩ | ⟨hlen2, ha4, hg4, herr4, hm4, hcne4⟩
            · -- outermost frame finished: output append then index advance
              have hlt3 : t3.curArg < m.inputs.length := by
                rcases hcl3 with hnil | hlt3 | ⟨hgeq, _⟩
                · rw [hc3] at hnil; exact absurd hnil (by simp)
                · exact hlt3
                · rw [hgeq, hg2]; exact hlt
              subst ht4
              have he5 : processEvent { t3 with args := t3.args ++ [x], curArray := [] } .exitArg = some { t3 with args := t3.args ++ [x], curArray := [], curArg := t3.curArg + 1 } :=
                exitArg_inc { t3 with args := t3.args ++ [x], curArray := [] } herr3 rfl
              constructor
              · refine boundAll_cons _ _ _ _ hBt3.1 (fun u hpe1 => ?_)
                rw [show processEvent t3 .exitArrayArg = some _ from hex4] at hpe1
                injection hpe1 with h'
                rw [← h']
                refine boundAll_cons _ _ _ _ (by simp; omega) (fun w hpe2 => ?_)
                rw [he5] at hpe2
                injection hpe2 with h''
                rw [← h'']
                exact boundAll_nil _ _ (by simp; omega)
              · intro t hrun
                rw [run_cons_exitArrayArg _ _ _ hex4, run_cons_some _ _ _ _ he5, run]
                  at hrun
                injection hrun with hinj
                subst hinj
                refine ⟨⟨by simp; omega, fun _ => ⟨hm3, by simp; omega, by simp; omega⟩⟩,
                  fun _ => ⟨herr3, by simp; omega, .inl rfl⟩⟩
            · -- inner frame folded/dropped: stack stays non-empty, no advance
              have hlt3 : t3.curArg < m.inputs.length := by
                rcases hcl3 with hnil | hlt3 | ⟨hgeq, hceq⟩
                · rw [hnil] at hlen2; simp at hlen2
                · exact hlt3
                · rw [hgeq, hg2]; exact hlt
              have he5 : processEvent t4 .exitArg = some t4 :=
                exitArg_noinc t4 herr4 hcne4
              refine stepConc_cons_state m t3 t4 .exitArrayArg _ hex4 hBt3.1
                (fun _ => ⟨herr3, by rw [ha4, hg4], .inr (.inl (by rw [hg4]; exact hlt3))⟩) ?_
              refine stepConc_cons_state m t4 t4 .exitArg _ he5
                (by rw [ha4]; exact hBt3.1) (extraRel_refl _ _) ?_
              refine stepConc_nil m t4 ⟨by rw [ha4]; exact hBt3.1, fun _ =>
                ⟨by rw [hm4, hm3], by rw [ha4, hg4]; exact hac3, by rw [hg4]; omega⟩⟩
      refine stepConc_cons_state m s s .enterArg _ he1 hargsn (extraRel_refl _ _) ?_
      refine stepConc_cons_state m s t2 .enterArrayArg _ he2 hargsn
        (fun _ => ⟨herr, by rw [ha2, hg2], .inr (.inl (by rw [hg2]; exact hlt))⟩) ?_
      exact stepConc_append m t2 _ _ (hes t2 hB2) htail
    · have hge : m.inputs.length ≤ s.curArg := by omega
      exact stepConc_err_after_one m s
        { s with err := some (.tooManyArguments m.inputs.length) } .enterArg _
        (enterArg_toomany s m herr hm hge) hargsn rfl _ rfl

theorem nodesEvents_nil : nodesEvents [] = [] := by
  simp [nodesEvents]

/-- Both bound conclusions hold for every node and node list, by strong
induction on the size measure. -/
theorem stepConc_main (k : Nat) :
    (∀ nd, nodeSize nd ≤ k → ∀ s m, Binv m s → StepConc m s (nodeEvents nd)) ∧
      (∀ nds, nodesSize nds ≤ k → ∀ s m, Binv m s → StepConc m s (nodesEvents nds)) := by
  induction k with
  | zero =>
    constructor
    · intro nd hsz _ _ _
      exact absurd hsz (by have := nodeSize_pos nd; omega)
    · intro nds hsz s m hB
      cases nds with
      | nil =>
        rw [nodesEvents_nil]
        exact stepConc_nil m s hB
      | cons nd nds =>
        have h1 := nodeSize_pos nd
        have h2 : nodeSize nd + nodesSize nds ≤ 0 := hsz
        exact absurd h2 (by omega)
  | succ k ih =>
    have hnode : ∀ nd, nodeSize nd ≤ k + 1 → ∀ s m, Binv m s →
        StepConc m s (nodeEvents nd) := by
      intro nd hsz s m hB
      cases nd with
      | lit l => exact stepConc_lit l s m hB
      | arr es =>
        refine stepConc_arr es s m hB (fun s2 hB2 => ?_)
        refine ih.2 es ?_ s2 m hB2
        have hq : nodeSize (.arr es) = 1 + nodesSize es := rfl
        omega
    refine ⟨hnode, ?_⟩
    intro nds hsz s m hB
    cases nds with
    | nil =>
      rw [nodesEvents_nil]
      exact stepConc_nil m s hB
    | cons nd nds =>
      rw [nodesEvents_cons]
      have hsz2 : nodeSize nd + nodesSize nds ≤ k + 1 := hsz
      have hp := nodeSize_pos nd
      refine stepConc_append m s _ _ (hnode nd (by omega) s m hB) (fun t hrun => ?_)
      exact ih.2 nds (by omega) t m ((hnode nd (by omega) s m hB).2 t hrun).1

/-- Every non-panicking prefix of a whole grammar-generated call keeps
the output list within the resolved method's declared parameter count. -/
theorem runCall_bound (c : Contract) (name : String) (m : Method)
    (hres : resolveName c name = some m) (nds : List Node) :
    boundAll m.inputs.length (newMethodListener c) (callEvents name nds) := by
  refine boundAll_cons _ _ _ _ (by simp [newMethodListener]) (fun t hpe => ?_)
  have hfn : enterFuncName (newMethodListener c) name =
      { newMethodListener c with method := some m } :=
    enterFuncName_resolved (newMethodListener c) name m hres
  rw [show processEvent (newMethodListener c) (.funcName name) =
    some (enterFuncName (newMethodListener c) name) from rfl, hfn] at hpe
  injection hpe with h
  subst h
  refine ((stepConc_main (nodesSize nds)).2 nds (le_refl _) _ m ?_).1
  exact ⟨by simp [newMethodListener], fun _ =>
    ⟨rfl, by simp [newMethodListener], by simp [newMethodListener]⟩⟩

/-! ### Shape of the produced values -/

/-- The dynamic type of a well-typed node's intended value is the concrete
Go type the declared parameter type maps to. -/
theorem typeOf_nodeValue (nd : Node) (t : AbiTy) (h : nodeMatches nd t = true) :
    typeOf (nodeValue nd t) = goValTy t := by
  cases nd with
  | lit l =>
    simp only [nodeMatches, Bool.and_eq_true, decide_eq_true_eq] at h
    obtain ⟨⟨h0, hk⟩, hc⟩ := h
    obtain ⟨v, hv, hd⟩ := coerceOk_exists l t hc
    rw [show nodeValue (.lit l) t = coerceD l t from rfl, hd,
      coerceLit_typeOf l t v hk hv,
      goValTy_scalar t (scalar_of_level_zero t h0)]
  | arr es =>
    cases t <;> first
      | rfl
      | simp [nodeMatches] at h

/-- The container depth of the concrete Go type of a declared parameter is
its declared array depth plus the intrinsic depth of the scalar's own Go
representation (one level for byte strings, zero otherwise). -/
theorem goDepth_goValTy (t : AbiTy) :
    goDepth (goValTy t) = arrayLevel t + goDepth (elemGoType (baseType t)) := by
  induction t with
  | sliceTy e ih =>
    have h1 : goDepth (goValTy (AbiTy.sliceTy e)) = 1 + goDepth (goValTy e) := rfl
    rw [h1, ih, show arrayLevel (AbiTy.sliceTy e) = 1 + arrayLevel e from rfl,
      show baseType (AbiTy.sliceTy e) = baseType e from rfl]
    omega
  | arrayTy n e ih =>
    have h1 : goDepth (goValTy (AbiTy.arrayTy n e)) = 1 + goDepth (goValTy e) := rfl
    rw [h1, ih, show arrayLevel (AbiTy.arrayTy n e) = 1 + arrayLevel e from rfl,
      show baseType (AbiTy.arrayTy n e) = baseType e from rfl]
    omega
  | intTy n => simp [goValTy, arrayLevel, baseType]
  | uintTy n => simp [goValTy, arrayLevel, baseType]
  | boolTy => simp [goValTy, arrayLevel, baseType]
  | stringTy => simp [goValTy, arrayLevel, baseType]
  | addressTy => simp [goValTy, arrayLevel, baseType]
  | hashTy => simp [goValTy, arrayLevel, baseType]
  | bytesTy => simp [goValTy, arrayLevel, baseType]
  | fixedBytesTy n => simp [goValTy, arrayLevel, baseType]

/-- Valid argument lists never have more nodes than declared parameters. -/
theorem validArgs_le (nds : List Node) (ts : List AbiTy)
    (h : validArgs nds ts = true) : nds.length ≤ ts.length := by
  induction nds generalizing ts with
  | nil => simp
  | cons nd nds ih =>
    cases ts with
    | nil => simp [validArgs] at h
    | cons t ts =>
      simp only [validArgs, Bool.and_eq_true] at h
      simpa [Nat.succ_le_succ_iff] using ih ts h.2

/-- The intended value list is as long as the supplied node list when there
are enough declared parameters. -/
theorem argValues_length (nds : List Node) (ts : List AbiTy)
    (h : nds.length ≤ ts.length) : (argValues nds ts).length = nds.length := by
  induction nds generalizing ts with
  | nil => rfl
  | cons nd nds ih =>
    cases ts with
    | nil => simp at h
    | cons t ts =>
      simp only [argValues, List.length_cons]
      rw [ih ts (by simpa using h)]

/-- Each position of a valid argument list is well-typed for the matching
declared parameter. -/
theorem validArgs_get (nds : List Node) (ts : List AbiTy)
    (h : validArgs nds ts = true) (i : Nat) (hi : i < nds.length) :
    ∃ hti : i < ts.length, nodeMatches (nds.get ⟨i, hi⟩) (ts.get ⟨i, hti⟩) = true := by
  induction nds generalizing ts i with
  | nil => simp at hi
  | cons nd nds ih =>
    cases ts with
    | nil => simp [validArgs] at h
    | cons t ts =>
      simp only [validArgs, Bool.and_eq_true] at h
      cases i with
      | zero => exact ⟨by simp, h.1.1.2⟩
      | succ i =>
        obtain ⟨hti, hmi⟩ := ih ts h.2 i (by simpa using hi)
        exact ⟨by simpa using hti, hmi⟩

/-- Each position of the intended value list is the intended value of the
node at that position against the matching declared type. -/
theorem argValues_get (nds : List Node) (ts : List AbiTy) (i : Nat)
    (hi : i < nds.length) (hti : i < ts.length)
    (hv : i < (argValues nds ts).length) :
    (argValues nds ts).get ⟨i, hv⟩ = nodeValue (nds.get ⟨i, hi⟩) (ts.get ⟨i, hti⟩) := by
  induction nds generalizing ts i with
  | nil => simp at hi
  | cons nd nds ih =>
    cases ts with
    | nil => simp at hti
    | cons t ts =>
      cases i with
      | zero => rfl
      | succ i => exact ih ts i (by simpa using hi) (by simpa using hti) _

/-- The intended value of an element list has one entry per element. -/
theorem nodesValue_length (es : List Node) (e : AbiTy) :
    (nodesValue es e).length = es.length := by
  induction es with
  | nil => rfl
  | cons nd nds ih => simp [nodesValue, ih]

/-- The intended value of an element list is elementwise the intended value
of the element, in source order. -/
theorem nodesValue_get (es : List Node) (e : AbiTy) (i : Nat)
    (hi : i < es.length) (hv : i < (nodesValue es e).length) :
    (nodesValue es e).get ⟨i, hv⟩ = nodeValue (es.get ⟨i, hi⟩) e := by
  induction es generalizing i with
  | nil => simp at hi
  | cons nd nds ih =>
    cases i with
    | zero => rfl
    | succ i => exact ih i (by simpa using hi) _

/-! ### Helpers for over-supplied argument streams -/

theorem nodesEvents_append (a b : List Node) :
    nodesEvents (a ++ b) = nodesEvents a ++ nodesEvents b := by
  induction a with
  | nil => rw [nodesEvents_nil]; rfl
  | cons nd nds ih =>
    rw [List.cons_append, nodesEvents_cons, nodesEvents_cons, ih, List.append_assoc]

/-- Every argument node's event block opens with `EnterArg`. -/
theorem nodeEvents_head (nd : Node) : ∃ tl, nodeEvents nd = .enterArg :: tl := by
  cases nd with
  | lit l => exact ⟨_, nodeEvents_lit l⟩
  | arr es => exact ⟨_, nodeEvents_arr es⟩

/-- The grammar walker never emits a function-name event inside an argument
subtree. -/
theorem funcName_notin (k : Nat) :
    (∀ nd, nodeSize nd ≤ k → ∀ txt, Event.funcName txt ∉ nodeEvents nd) ∧
      (∀ nds, nodesSize nds ≤ k → ∀ txt, Event.funcName txt ∉ nodesEvents nds) := by
  induction k with
  | zero =>
    constructor
    · intro nd hsz
      exact absurd hsz (by have := nodeSize_pos nd; omega)
    · intro nds hsz txt
      cases nds with
      | nil => rw [nodesEvents_nil]; simp
      | cons nd nds =>
        have h1 := nodeSize_pos nd
        have h2 : nodeSize nd + nodesSize nds ≤ 0 := hsz
        exact absurd h2 (by omega)
  | succ k ih =>
    have hnode : ∀ nd, nodeSize nd ≤ k + 1 → ∀ txt,
        Event.funcName txt ∉ nodeEvents nd := by
      intro nd hsz txt
      cases nd with
      | lit l =>
        rw [nodeEvents_lit]
        cases l <;> simp [litEvent]
      | arr es =>
        rw [nodeEvents_arr]
        have hq : nodeSize (.arr es) = 1 + nodesSize es := rfl
        have hin := ih.2 es (by omega) txt
        simp only [List.mem_cons, List.mem_append]
        rintro (h | h | h | h)
        · exact Event.noConfusion h
        · exact Event.noConfusion h
        · exact hin h
        · simp at h
    refine ⟨hnode, ?_⟩
    intro nds hsz txt
    cases nds with
    | nil => rw [nodesEvents_nil]; simp
    | cons nd nds =>
      rw [nodesEvents_cons]
      have hsz2 : nodeSize nd + nodesSize nds ≤ k + 1 := hsz
      have hp := nodeSize_pos nd
      simp only [List.mem_append]
      rintro (h | h)
      · exact hnode nd (by omega) txt h
      · exact ih.2 nds (by omega) txt h

/-- Instance of `funcName_notin` for a node list. -/
theorem funcName_notin_nodes (nds : List Node) (txt : String) :
    Event.funcName txt ∉ nodesEvents nds :=
  (funcName_notin (nodesSize nds)).2 nds (le_refl _) txt

/-- A grammar-generated stream supplying more than the declared number of
top-level arguments, the first block of which is valid, terminates with the
`tooManyArguments` error and no panic. -/
theorem tooMany_of_extra (c : Contract) (name : String) (m : Method)
    (hres : resolveName c name = some m) (nds rest : List Node) (nd : Node)
    (hv : validArgs nds m.inputs = true) (hlen : nds.length = m.inputs.length) :
    (runCall c name (nds ++ nd :: rest)).map Listener.err =
      some (some (.tooManyArguments m.inputs.length)) := by
  have h1 : enterFuncName (newMethodListener c) name =
      { newMethodListener c with method := some m } :=
    enterFuncName_resolved (newMethodListener c) name m hres
  obtain ⟨u, hrun, huerr, huc, huarg, hum, _, _⟩ :=
    run_nodes_valid nds { newMethodListener c with method := some m } m rfl rfl rfl
      (by simpa [newMethodListener] using hv)
  have hucur : u.curArg = nds.length := by simpa [newMethodListener] using huarg
  have hge : m.inputs.length ≤ u.curArg := by omega
  obtain ⟨tl, htl⟩ := nodeEvents_head nd
  have h2 : enterArg u = some { u with err := some (.tooManyArguments m.inputs.length) } :=
    enterArg_toomany u m huerr (by rw [hum]) hge
  have h3 : run { u with err := some (.tooManyArguments m.inputs.length) }
      (tl ++ nodesEvents rest) =
      some { u with err := some (.tooManyArguments m.inputs.length) } := by
    refine run_frozen_id _ (.tooManyArguments m.inputs.length) rfl _ (fun txt hm2 => ?_)
    rcases List.mem_append.mp hm2 with h | h
    · have : Event.funcName txt ∈ nodeEvents nd := by
        rw [htl]
        exact List.mem_cons_of_mem _ h
      exact funcName_notin_nodes [nd] txt (by
        rw [nodesEvents_cons, nodesEvents_nil, List.append_nil]
        exact this)
    · exact funcName_notin_nodes rest txt h
  unfold runCall callEvents
  rw [run_cons_some _ _ _ _ (show processEvent (newMethodListener c) (.funcName name) =
    some { newMethodListener c with method := some m } by rw [processEvent, h1])]
  rw [nodesEvents_append, run_append_some _ _ _ _ hrun, nodesEvents_cons, htl]
  rw [List.cons_append]
  rw [run_cons_enterArg _ _ _ h2, h3]
  rfl

/-! ### The claims -/

/-- C1 (amended): for every contract interface and grammar-generated event
stream whose top-level argument count equals the resolved method's declared
parameter count and whose literals agree with their declared types, with
every declared array depth at most 2 and no empty array literal at a
depth-2 parameter, the parse completes with no error, the output list has
exactly one value per declared parameter, and each value's dynamic type is
the concrete Go type of its declared parameter type, with container depth
equal to the declared array depth plus the scalar kind's own representation
depth.  Without the depth-2 restriction the property fails
(`C1_counterexample`). -/
theorem C1_valid_parse_shape (c : Contract) (name : String) (nds : List Node)
    (m : Method) (hres : resolveName c name = some m)
    (hv : validArgs nds m.inputs = true) (hlen : nds.length = m.inputs.length) :
    ∃ u, runCall c name nds = some u ∧ u.err = none ∧
      u.args.length = m.inputs.length ∧
      ∀ i, (hi : i < u.args.length) → ∃ hti : i < m.inputs.length,
        typeOf (u.args.get ⟨i, hi⟩) = goValTy (m.inputs.get ⟨i, hti⟩) ∧
          goDepth (typeOf (u.args.get ⟨i, hi⟩)) =
            arrayLevel (m.inputs.get ⟨i, hti⟩) +
              goDepth (elemGoType (baseType (m.inputs.get ⟨i, hti⟩))) := by
  obtain ⟨u, hrun, herr, _, _, _, hargs⟩ := runCall_valid c name nds m hres hv
  have hle : nds.length ≤ m.inputs.length := validArgs_le nds m.inputs hv
  refine ⟨u, hrun, herr, ?_, ?_⟩
  · rw [hargs, argValues_length nds m.inputs hle, hlen]
  · rw [hargs]
    intro i hi
    have hin : i < nds.length := by
      rwa [argValues_length nds m.inputs hle] at hi
    have hti : i < m.inputs.length := by omega
    obtain ⟨hti2, hmt⟩ := validArgs_get nds m.inputs hv i hin
    refine ⟨hti, ?_, ?_⟩
    · rw [argValues_get nds m.inputs i hin hti2 hi, typeOf_nodeValue _ _ hmt]
    · rw [argValues_get nds m.inputs i hin hti2 hi, typeOf_nodeValue _ _ hmt,
        goDepth_goValTy]

/-- C1 witness: `transfer(address,uint256)` called with a 20-byte hex
address and the decimal literal `100`. -/
theorem C1_valid_parse_shape_witness :
    resolveName exampleContract "transfer" = some mTransfer ∧
      validArgs [.lit (.hexL "0x5FfC014343cd971B7eb70732021E26C35B744cc4"),
        .lit (.intL "100")] mTransfer.inputs = true ∧
      (∃ u, runCall exampleContract "transfer"
          [.lit (.hexL "0x5FfC014343cd971B7eb70732021E26C35B744cc4"),
            .lit (.intL "100")] = some u ∧ u.err = none ∧
        u.args.length = mTransfer.inputs.length ∧
        ∀ i, (hi : i < u.args.length) → ∃ hti : i < mTransfer.inputs.length,
          typeOf (u.args.get ⟨i, hi⟩) = goValTy (mTransfer.inputs.get ⟨i, hti⟩) ∧
            goDepth (typeOf (u.args.get ⟨i, hi⟩)) =
              arrayLevel (mTransfer.inputs.get ⟨i, hti⟩) +
                goDepth (elemGoType (baseType (mTransfer.inputs.get ⟨i, hti⟩)))) :=
  ⟨rfl, rfl,
    C1_valid_parse_shape exampleContract "transfer"
      [.lit (.hexL "0x5FfC014343cd971B7eb70732021E26C35B744cc4"), .lit (.intL "100")]
      mTransfer rfl rfl rfl⟩

/-- C1 counterexample to the original claim: `deep(uint8[][][])` called
with the well-typed, arity-correct literal `[[[1]]]` does not complete
cleanly — the parse ends with the `unhandledNestingLevel` error because the
frame constructor only covers nesting levels 1 and 2. -/
theorem C1_counterexample :
    resolveName exampleContract "deep" = some mU8d3 ∧
      nodeMatches (.arr [.arr [.arr [lit1]]])
        (.sliceTy (.sliceTy (.sliceTy (.uintTy 8)))) = true ∧
      [Node.arr [.arr [.arr [lit1]]]].length = mU8d3.inputs.length ∧
      (runCall exampleContract "deep" [.arr [.arr [.arr [lit1]]]]).map Listener.err =
        some (some (.unhandledNestingLevel 3)) :=
  ⟨rfl, rfl, rfl, rfl⟩

/-- C2 (amended): the first `OnArrayStart` for an argument creates one
frame per declared array level, each of the concrete element type implied
by the base kind and the level — but only for declared depths 1 and 2; and
every well-typed literal of depth at most 2 parses without error.  For
every depth at least 3 the frame constructor fails (`C2_counterexample`),
so the original arbitrary-depth claim does not hold. -/
theorem C2_array_depth :
    (∀ s m input, s.err = none → s.method = some m →
        m.inputs[s.curArg]? = some input → s.curArray = [] → arrayLevel input = 1 →
        ∃ t, enterArrayArg s = some t ∧ t.err = none ∧
          t.curArray = [.sliceV (elemGoType (baseType input)) []]) ∧
      (∀ s m input, s.err = none → s.method = some m →
        m.inputs[s.curArg]? = some input → s.curArray = [] → arrayLevel input = 2 →
        ∃ t, enterArrayArg s = some t ∧ t.err = none ∧
          t.curArray = [.sliceV (.sliceT (elemGoType (baseType input))) [],
            .sliceV (elemGoType (baseType input)) []]) ∧
      (∀ c name nds m, resolveName c name = some m → validArgs nds m.inputs = true →
        ∃ u, runCall c name nds = some u ∧ u.err = none) := by
  refine ⟨?_, ?_, ?_⟩
  · intro s m input h hm hi hc hd
    rw [enterArrayArg_shape s m input h hm hi, if_pos (by rw [hc]; rfl), hd,
      pushFrames_one _ (baseType_scalar input)]
    exact ⟨_, rfl, h, by simp⟩
  · intro s m input h hm hi hc hd
    rw [enterArrayArg_shape s m input h hm hi, if_pos (by rw [hc]; rfl), hd,
      pushFrames_two _ (baseType_scalar input)]
    exact ⟨_, rfl, h, by simp⟩
  · intro c name nds m hres hv
    obtain ⟨u, hrun, herr, _⟩ := runCall_valid c name nds m hres hv
    exact ⟨u, hrun, herr⟩

/-- C2 witness: fresh array entry for `uint8[]` creates one `[]uint8`
frame, for `uint8[][]` it creates an outer `[][]uint8` and an inner
`[]uint8` frame, and `setValues([1])` parses without error. -/
theorem C2_array_depth_witness :
    (∃ t, enterArrayArg sSetValues = some t ∧ t.err = none ∧
        t.curArray = [.sliceV (elemGoType (baseType (AbiTy.sliceTy (.uintTy 8)))) []]) ∧
      (∃ t, enterArrayArg sG = some t ∧ t.err = none ∧
        t.curArray =
          [.sliceV (.sliceT (elemGoType (baseType (AbiTy.sliceTy (.sliceTy (.uintTy 8)))))) [],
            .sliceV (elemGoType (baseType (AbiTy.sliceTy (.sliceTy (.uintTy 8))))) []]) ∧
      (∃ u, runCall exampleContract "setValues" [.arr [lit1]] = some u ∧ u.err = none) :=
  ⟨C2_array_depth.1 sSetValues mU8d1 (.sliceTy (.uintTy 8)) rfl rfl rfl rfl rfl,
    C2_array_depth.2.1 sG mU8d2 (.sliceTy (.sliceTy (.uintTy 8))) rfl rfl rfl rfl rfl,
    C2_array_depth.2.2 exampleContract "setValues" [.arr [lit1]] mU8d1 rfl rfl⟩

/-- C2 counterexample to the original claim: for declared depth 3 the
first `OnArrayStart` does not succeed — it sets the
`unhandledNestingLevel` error instead of creating three frames. -/
theorem C2_counterexample :
    arrayLevel (AbiTy.sliceTy (.sliceTy (.sliceTy (.uintTy 8)))) = 3 ∧
      (enterArrayArg { newMethodListener exampleContract with method := some mU8d3 }).map
        Listener.err = some (some (.unhandledNestingLevel 3)) :=
  ⟨rfl, rfl⟩

/-- C3 (amended): once the sticky error is set, every event other than the
function-name event is a strict no-op — the state is returned unchanged,
no panic occurs, and the stream drains to completion.  The function-name
event is NOT guarded by the sticky error: it still mutates the method
field and can even overwrite the error slot (`C3_counterexample`). -/
theorem C3_sticky_noop (s : Listener) (e : PErr) (h : s.err = some e)
    (evs : List Event) (hname : ∀ txt, Event.funcName txt ∉ evs) :
    run s evs = some s :=
  run_frozen_id s e h evs hname

/-- C3 witness: an errored state consumes an argument block unchanged. -/
theorem C3_sticky_noop_witness :
    run { newMethodListener exampleContract with err := some (.formatError "bad") }
        [.enterArg, .intArg "1", .exitArg] =
      some { newMethodListener exampleContract with err := some (.formatError "bad") } :=
  C3_sticky_noop { newMethodListener exampleContract with err := some (.formatError "bad") }
    (.formatError "bad") rfl [.enterArg, .intArg "1", .exitArg] (by simp)

/-- C3 counterexample to the original claim: with the sticky error set, a
function-name event still mutates the state — an unknown name replaces the
stored first error, and a known name overwrites the method field. -/
theorem C3_counterexample :
    (enterFuncName { newMethodListener exampleContract with
        err := some (.formatError "x") } "nosuch").err = some (.unknownMethod "nosuch") ∧
      (enterFuncName { newMethodListener exampleContract with
        err := some (.formatError "x") } "f").method = some mU256 :=
  ⟨rfl, rfl⟩

/-- C4 (amended): a grammar-generated stream that supplies more top-level
arguments than the resolved method declares, the declared count of which
parse validly, always terminates with the `tooManyArguments` error: the
`EnterArg` arity guard fires on the first extra argument and the error
sticks to the end of the stream.  The unconditional claim over every such
stream is refuted by `C4_counterexample`, where the extra top-level
argument never trips the guard because the argument index is only advanced
when the array stack is empty. -/
theorem C4_too_many_arguments (c : Contract) (name : String) (m : Method)
    (hres : resolveName c name = some m) (nds rest : List Node) (nd : Node)
    (hv : validArgs nds m.inputs = true) (hlen : nds.length = m.inputs.length) :
    (runCall c name (nds ++ nd :: rest)).map Listener.err =
      some (some (.tooManyArguments m.inputs.length)) :=
  tooMany_of_extra c name m hres nds rest nd hv hlen

/-- C4 witness: `f(uint256)` called as `f(1,2)` yields
`tooManyArguments`. -/
theorem C4_too_many_arguments_witness :
    resolveName exampleContract "f" = some mU256 ∧
      validArgs [lit1] mU256.inputs = true ∧
      [lit1].length = mU256.inputs.length ∧
      (runCall exampleContract "f" ([lit1] ++ lit2 :: [])).map Listener.err =
        some (some (.tooManyArguments mU256.inputs.length)) :=
  ⟨rfl, rfl, rfl,
    C4_too_many_arguments exampleContract "f" mU256 rfl [lit1] [] lit2 rfl rfl⟩

/-- C4 counterexample to the original claim: `g(uint8[][])` called as
`g([1,2],[3])` supplies two top-level arguments against one declared
parameter, yet the parse completes with no error at all — the
under-nested first argument leaves the array stack non-empty, so `ExitArg`
never advances the argument index and the second `EnterArg` passes the
arity guard. -/
theorem C4_counterexample :
    mU8d2.inputs.length = 1 ∧
      [Node.arr [lit1, lit2], Node.arr [lit3]].length = 2 ∧
      (runCall exampleContract "g" [.arr [lit1, lit2], .arr [lit3]]).map Listener.err =
        some none :=
  ⟨rfl, rfl, rfl⟩

/-- C5 (amended): round-trip of array literals.  A valid single-argument
call produces exactly the intended value of its node; when the node is an
array literal of a depth-1 or depth-2 parameter, that value is a container
with one element per source element, each equal to the intended value of
the corresponding source element, in source order.  Validity excludes the
empty array literal at a depth-2 parameter: there the round-trip fails in
the code (`C5_counterexample`), so the original unrestricted N-element
claim does not hold for N = 0 at depth 2. -/
theorem C5_round_trip (c : Contract) (name : String) (m : Method) (t : AbiTy)
    (hres : resolveName c name = some m) (hin : m.inputs = [t]) (nd : Node)
    (hv : validArgs [nd] m.inputs = true) :
    ∃ u, runCall c name [nd] = some u ∧ u.err = none ∧
      u.args = [nodeValue nd t] ∧
      ∀ es e, nd = .arr es → elemTy t = some e →
        nodeValue nd t = .sliceV (goValTy e) (nodesValue es e) ∧
          (nodesValue es e).length = es.length ∧
          ∀ i, (hi : i < es.length) → ∀ hv2 : i < (nodesValue es e).length,
            (nodesValue es e).get ⟨i, hv2⟩ = nodeValue (es.get ⟨i, hi⟩) e := by
  obtain ⟨u, hrun, herr, _, _, _, hargs⟩ := runCall_valid c name [nd] m hres hv
  refine ⟨u, hrun, herr, ?_, ?_⟩
  · rw [hargs, hin]
    rfl
  · rintro es e rfl he
    cases t with
    | sliceTy e2 =>
      rw [show elemTy (.sliceTy e2) = some e2 from rfl] at he
      injection he with he2
      subst he2
      exact ⟨rfl, nodesValue_length es e2, fun i hi hv2 => nodesValue_get es e2 i hi hv2⟩
    | arrayTy n e2 =>
      rw [show elemTy (.arrayTy n e2) = some e2 from rfl] at he
      injection he with he2
      subst he2
      exact ⟨rfl, nodesValue_length es e2, fun i hi hv2 => nodesValue_get es e2 i hi hv2⟩
    | intTy n => exact Option.noConfusion he
    | uintTy n => exact Option.noConfusion he
    | boolTy => exact Option.noConfusion he
    | stringTy => exact Option.noConfusion he
    | addressTy => exact Option.noConfusion he
    | hashTy => exact Option.noConfusion he
    | bytesTy => exact Option.noConfusion he
    | fixedBytesTy n => exact Option.noConfusion he

/-- C5 witness: `setValues(uint8[])` called as `setValues([1,2,3])`. -/
theorem C5_round_trip_witness :
    resolveName exampleContract "setValues" = some mU8d1 ∧
      mU8d1.inputs = [.sliceTy (.uintTy 8)] ∧
      validArgs [.arr [lit1, lit2, lit3]] mU8d1.inputs = true ∧
      (∃ u, runCall exampleContract "setValues" [.arr [lit1, lit2, lit3]] = some u ∧
        u.err = none ∧
        u.args = [nodeValue (.arr [lit1, lit2, lit3]) (.sliceTy (.uintTy 8))] ∧
        ∀ es e, Node.arr [lit1, lit2, lit3] = .arr es →
          elemTy (AbiTy.sliceTy (.uintTy 8)) = some e →
          nodeValue (.arr [lit1, lit2, lit3]) (.sliceTy (.uintTy 8)) =
              .sliceV (goValTy e) (nodesValue es e) ∧
            (nodesValue es e).length = es.length ∧
            ∀ i, (hi : i < es.length) → ∀ hv2 : i < (nodesValue es e).length,
              (nodesValue es e).get ⟨i, hv2⟩ = nodeValue (es.get ⟨i, hi⟩) e) :=
  ⟨rfl, rfl, rfl,
    C5_round_trip exampleContract "setValues" mU8d1 (.sliceTy (.uintTy 8)) rfl rfl
      (.arr [lit1, lit2, lit3]) rfl⟩

/-- C5 counterexample to the original claim: at depth 2 the round-trip
fails for N = 0.  `g(uint8[][])` called as `g([])` supplies a well-typed
empty array literal, yet the parse ends with no error and an EMPTY output
list — no container of length 0 is produced: `ExitArrayArg` folds the
inner frame into the outer one but never flushes it, and `ExitArg` sees a
non-empty stack and never completes the argument. -/
theorem C5_counterexample :
    nodeMatches (.arr []) (.sliceTy (.sliceTy (.uintTy 8))) = true ∧
      mU8d2.inputs = [.sliceTy (.sliceTy (.uintTy 8))] ∧
      (runCall exampleContract "g" [.arr []]).map
        (fun u => (u.err, u.args.length, u.curArray.length)) = some (none, 0, 1) :=
  ⟨rfl, rfl, rfl⟩

/-- C6 (amended): when a pushed scalar's dynamic type disagrees with the
innermost frame's element type, `pushArg` does not signal `TypeMismatch`
through the sticky-error slot — it panics (the Go type assertion fails),
modelled as `none`. -/
theorem C6_push_mismatch_panics (s : Listener) (m : Method) (input : AbiTy)
    (v : GoVal) (hm : s.method = some m) (hi : m.inputs[s.curArg]? = some input)
    (fs xs : List GoVal) (e : GoTy) (hc : s.curArray = fs ++ [.sliceV e xs])
    (hmis : typeOf v ≠ elemGoType (baseType input)) :
    pushArg s v = none := by
  unfold pushArg
  rw [hc, if_neg (by simp)]
  simp only [hm, hi, List.getLast?_concat,
    pushArgDispatch_scalar _ (baseType_scalar input), appendTyped]
  by_cases h1 : e = elemGoType (baseType input)
  · rw [if_pos h1, if_neg hmis]
  · rw [if_neg h1]

/-- C6 witness: a `bool` value against a `[]uint8` frame of a `uint8[]`
parameter panics. -/
theorem C6_push_mismatch_panics_witness :
    typeOf (.boolV true) ≠ elemGoType (baseType (AbiTy.sliceTy (.uintTy 8))) ∧
      pushArg { sSetValues with curArray := [.sliceV .uint8T []] } (.boolV true) = none :=
  ⟨by decide,
    C6_push_mismatch_panics { sSetValues with curArray := [.sliceV .uint8T []] }
      mU8d1 (.sliceTy (.uintTy 8)) (.boolV true) rfl rfl [] [] .uint8T rfl (by decide)⟩

/-- C6 counterexample to the original claim: the mismatch is reachable
from real input and the whole parse panics instead of surfacing an error —
`g(uint8[][])` called as `g([[1,2],3])` pushes the `uint8` scalar `3`
against the `[][]uint8` outer frame and the run is `none`. -/
theorem C6_counterexample :
    runCall exampleContract "g" [.arr [.arr [lit1, lit2], lit3]] = none := rfl

/-- C7 (amended): over every grammar-generated event stream — valid or not
— the output argument list never exceeds the resolved method's declared
parameter count, at every prefix of the parse and at its end.  For raw
event streams outside the grammar's enter/exit protocol the bound can be
violated (`C7_counterexample`). -/
theorem C7_output_bound (c : Contract) (name : String) (m : Method)
    (hres : resolveName c name = some m) (nds : List Node)
    (p q : List Event) (hpq : callEvents name nds = p ++ q)
    (t : Listener) (hrun : run (newMethodListener c) p = some t) :
    t.args.length ≤ m.inputs.length :=
  runCall_bound c name m hres nds p q t hpq hrun

/-- C7 witness: the resolved-but-argumentless prefix of a call to
`f(uint256)` holds no more than one output value. -/
theorem C7_output_bound_witness :
    ({ newMethodListener exampleContract with method := some mU256 } : Listener).args.length ≤
      mU256.inputs.length :=
  C7_output_bound exampleContract "f" mU256 rfl [] [.funcName "f"] [] rfl
    { newMethodListener exampleContract with method := some mU256 } rfl

/-- C7 counterexample to the original claim: a raw stream of two literal
events with no `EnterArg` around them appends two values to the output
list of `f(uint256)`, exceeding the declared parameter count — the
handlers themselves never check the bound, only the `EnterArg` guard
does. -/
theorem C7_counterexample :
    (run (newMethodListener exampleContract) [.funcName "f", .intArg "1", .intArg "2"]).map
        (fun u => u.args.length) = some 2 ∧
      mU256.inputs.length = 1 :=
  ⟨rfl, rfl⟩

/-- C8: the function-name event resolves the method by exact name against
the contract interface, the reserved name `constructor` resolves to the
interface's constructor, and every other unmatched name sets the
`unknownMethod` error. -/
theorem C8_name_resolution (s : Listener) (name : String) :
    (name = "constructor" → enterFuncName s name =
        { s with method := some s.contract.abi.constructorMethod }) ∧
      (∀ m, name ≠ "constructor" → s.contract.abi.lookup name = some m →
        enterFuncName s name = { s with method := some m }) ∧
      (name ≠ "constructor" → s.contract.abi.lookup name = none →
        enterFuncName s name = { s with err := some (.unknownMethod name) }) := by
  refine ⟨fun h => ?_, fun m hn hl => ?_, fun hn hl => enterFuncName_unknown s name hn hl⟩
  · unfold enterFuncName
    rw [if_pos h]
  · unfold enterFuncName
    rw [if_neg hn, hl]

/-- C8 witness: the three resolution modes on the example contract —
`constructor`, the declared `f`, and an undeclared name. -/
theorem C8_name_resolution_witness :
    enterFuncName (newMethodListener exampleContract) "constructor" =
        { newMethodListener exampleContract with
          method := some (newMethodListener exampleContract).contract.abi.constructorMethod } ∧
      enterFuncName (newMethodListener exampleContract) "f" =
        { newMethodListener exampleContract with method := some mU256 } ∧
      enterFuncName (newMethodListener exampleContract) "nosuch" =
        { newMethodListener exampleContract with err := some (.unknownMethod "nosuch") } :=
  ⟨(C8_name_resolution (newMethodListener exampleContract) "constructor").1 rfl,
    (C8_name_resolution (newMethodListener exampleContract) "f").2.1 mU256 (by decide) rfl,
    (C8_name_resolution (newMethodListener exampleContract) "nosuch").2.2 (by decide) rfl⟩

/-- C9 (amended): for well-typed argument streams every access of the
declared parameter list is in bounds and the parse never panics.  For
merely well-ordered streams the original claim fails: a bracketed literal
for a scalar parameter walks past the arity guard and `ExitArrayArg`
indexes the parameter list out of range (`C9_counterexample`). -/
theorem C9_no_oob (c : Contract) (name : String) (nds : List Node) (m : Method)
    (hres : resolveName c name = some m) (hv : validArgs nds m.inputs = true) :
    ∃ u, runCall c name nds = some u := by
  obtain ⟨u, hrun, _⟩ := runCall_valid c name nds m hres hv
  exact ⟨u, hrun⟩

/-- C9 witness: a valid nested call to `g(uint8[][])` completes without
panicking. -/
theorem C9_no_oob_witness :
    resolveName exampleContract "g" = some mU8d2 ∧
      validArgs [.arr [.arr [lit1, lit2]]] mU8d2.inputs = true ∧
      (∃ u, runCall exampleContract "g" [.arr [.arr [lit1, lit2]]] = some u) :=
  ⟨rfl, rfl, C9_no_oob exampleContract "g" [.arr [.arr [lit1, lit2]]] mU8d2 rfl rfl⟩

/-- C9 counterexample to the original claim: `u8(uint8)` called as
`u8([1])` is a well-ordered grammar stream — the name event comes first
and the argument wraps its events — yet the parse panics: the scalar
parameter makes `EnterArrayArg` push no frames, the literal lands in the
output list, `ExitArg` advances the index to 1, and `ExitArrayArg` then
reads the parameter list at index 1, out of range. -/
theorem C9_counterexample :
    runCall exampleContract "u8" [.arr [lit1]] = none := rfl

/-- C10: a scalar literal arriving for a parameter of declared array depth
at least 1 while the array stack is empty is coerced against the
parameter's base scalar kind and appended bare to the output list with no
error — producing a value whose dynamic type is not the declared
parameter's container type. -/
theorem C10_bare_scalar (s : Listener) (m : Method) (input : AbiTy) (l : Lit)
    (h : s.err = none) (hm : s.method = some m)
    (hi : m.inputs[s.curArg]? = some input) (hc : s.curArray = [])
    (hd : 1 ≤ arrayLevel input)
    (hk : litKindOk l (baseType input) = true)
    (hco : coerceOk l (baseType input) = true) :
    processEvent s (litEvent l) =
        some { s with args := s.args ++ [coerceD l (baseType input)] } ∧
      typeOf (coerceD l (baseType input)) ≠ goValTy input := by
  obtain ⟨v, hv, hvd⟩ := coerceOk_exists l (baseType input) hco
  constructor
  · rw [processEvent_lit s l m input h hm hi, hv]
    show pushArg s v = _
    rw [pushArg_empty s v hc, hvd]
  · rw [hvd]
    have hty := coerceLit_typeOf l (baseType input) v hk hv
    intro heq
    have hdep := congrArg goDepth heq
    rw [hty, goDepth_goValTy] at hdep
    omega

/-- C10 witness: `setValues(uint8[])` receiving the bare literal `1`
appends the scalar `uint8` value with no error. -/
theorem C10_bare_scalar_witness :
    mU8d1.inputs[sSetValues.curArg]? = some (.sliceTy (.uintTy 8)) ∧
      processEvent sSetValues (litEvent (.intL "1")) =
          some { sSetValues with
            args := sSetValues.args ++ [coerceD (.intL "1")
              (baseType (AbiTy.sliceTy (.uintTy 8)))] } ∧
        typeOf (coerceD (.intL "1") (baseType (AbiTy.sliceTy (.uintTy 8)))) ≠
          goValTy (AbiTy.sliceTy (.uintTy 8)) :=
  ⟨rfl,
    C10_bare_scalar sSetValues mU8d1 (.sliceTy (.uintTy 8)) (.intL "1")
      rfl rfl rfl rfl (by decide) rfl rfl⟩

end Funcparser
